import Mathlib

/-!
# Server-code commands of kii-cli (servercode.go)

A shallow embedding of `servercode.go`, the file that implements the
`servercode:*` subcommands of the command-line client, followed by theorems
about it.

Modelling conventions.

* A Go `string` is a Lean `String`; a `[]byte` and the contents of an
  `io.Reader` are `Bytes`; `strings.NewReader s` is `toBytes s`.
* `int64` values are integers, and every arithmetic operation on them that can
  overflow is wrapped to 64 bits (`wrapInt64`).
* A command runs in `Cmd`: it threads a `World` (the log of HTTP requests
  issued so far and what has been written to standard output) and either
  returns or stops (`Abort`: a Go panic or `os.Exit`). The world is kept when a
  command stops, so that what happened before the stop stays observable.
* Everything `servercode.go` calls but does not define is a field of `Env`:
  the configuration, the HTTP transport, the file system, standard input, the
  JSON decoder, the time formatter, `sort.Sort`, and the help printers.
* The sort the program runs is the library's `sort.Sort` over the methods
  `Len`, `Less` and `Swap` of `RawVersions`. It is embedded as `GoSort.sortSort`
  and proved to sort (`sortSort_spec`); `librarySort` is the slice it leaves,
  and the theorems on the order of the output take `env.sortSort` to be it.
-/

set_option linter.dupNamespace false

namespace KiiCli

/-! ## Values -/

/-- Byte slices and reader contents. -/
abbrev Bytes := List UInt8

/-- The bytes of a Go string (`[]byte(s)`, `strings.NewReader(s)`). -/
def toBytes (s : String) : Bytes := s.toUTF8.data.toList

/-- Go type `Headers`: `map[string]string`, kept as an association list. -/
abbrev Headers := List (String × String)

/-- Indexing a `map[string]string`: the zero value `""` when the key is absent
(also when the map is nil). -/
def mapIndex (m : List (String × String)) (key : String) : String :=
  match m.lookup key with
  | some v => v
  | none => ""

/-! ## 64-bit integer arithmetic -/

/-- Two's-complement wrap-around of an integer to the `int64` range. -/
def wrapInt64 (x : Int) : Int := (x + 2 ^ 63) % 2 ^ 64 - 2 ^ 63

/-- Predicate: the integer is an `int64` value. -/
def IsInt64 (x : Int) : Prop := -(2 : Int) ^ 63 ≤ x ∧ x < 2 ^ 63

/-- Go `a / b` on `int64`: quotient truncated toward zero. -/
def int64Div (a b : Int) : Int := wrapInt64 (Int.tdiv a b)

/-- Go `a % b` on `int64`: remainder with the sign of the dividend. -/
def int64Mod (a b : Int) : Int := wrapInt64 (Int.tmod a b)

/-- Go `a * b` on `int64`. -/
def int64Mul (a b : Int) : Int := wrapInt64 (a * b)

/-! ## Version records -/

/-- Result of `time.Unix(sec, nsec)`: the instant `sec` seconds and `nsec`
nanoseconds after the Unix epoch (the library accepts any `nsec`). -/
structure Time where
  sec : Int
  nsec : Int
deriving DecidableEq, Repr

/-- Library function `time.Unix`. -/
def Time.Unix (sec nsec : Int) : Time := ⟨sec, nsec⟩

/-- Nanoseconds since the Unix epoch denoted by a `Time`. -/
def Time.unixNano (t : Time) : Int := t.sec * 10 ^ 9 + t.nsec

/-- Go type `RawVersion`, a version record as the server sends it. -/
structure RawVersion where
  VersionId : String
  CreatedAt : Int
  ModifiedAt : Int
  Active : Bool
deriving DecidableEq, Repr

/-- Go type `RawVersions`. -/
abbrev RawVersions := List RawVersion

/-- Go type `Versions`. -/
structure Versions where
  Versions : RawVersions
deriving DecidableEq, Repr

/-- Go type `Version`, the presentation view of a record. -/
structure Version where
  VersionId : String
  CreatedAt : Time
  Active : String
deriving DecidableEq, Repr

/-- Method `RawVersions.Len`. -/
def RawVersions.Len (self : RawVersions) : Nat := self.length

/-- Method `RawVersions.Swap`; `none` is the index-out-of-range panic. -/
def RawVersions.Swap (self : RawVersions) (i j : Nat) : Option RawVersions :=
  match self[i]?, self[j]? with
  | some a, some b => some ((self.set i b).set j a)
  | _, _ => none

/-- Method `RawVersions.Less`; `none` is the index-out-of-range panic. -/
def RawVersions.Less (self : RawVersions) (i j : Nat) : Option Bool :=
  match self[i]?, self[j]? with
  | some a, some b => some (decide (a.CreatedAt < b.CreatedAt))
  | _, _ => none

/-- Method `RawVersion.Version`. -/
def RawVersion.Version (self : RawVersion) : Version :=
  let a := if self.Active then "active" else "inactive"
  ⟨self.VersionId,
   Time.Unix (int64Div self.CreatedAt 1000)
     (int64Mul (int64Mul (int64Mod self.CreatedAt 1000) 1000) 1000),
   a⟩

/-! ## Commands, the world they act on, and their environment -/

/-- HTTP methods used by the client. -/
inductive Method where
  | GET
  | POST
  | PUT
  | DELETE
deriving DecidableEq, Repr

/-- One HTTP request as handed to the transport helpers. -/
structure Request where
  method : Method
  path : String
  headers : Headers
  body : Bytes
deriving DecidableEq, Repr

/-- Observable state: the requests issued so far, oldest first, and the chunks
written to standard output, one per print call. -/
structure World where
  requests : List Request
  stdout : List Bytes
deriving DecidableEq, Repr

/-- Ways a command stops before its end. -/
inductive Abort where
  /-- The `panic(err)` after `ioutil.ReadFile`. -/
  | readFile
  /-- A transport helper failed. -/
  | transport
  /-- The `panic(err)` after `json.Unmarshal` in `ListVersions`. -/
  | decode
  /-- The call `os.Exit(ExitIllegalNumberOfArgs)`. -/
  | illegalNumberOfArgs
  /-- Index out of range on `c.Args()`. -/
  | indexOutOfRange
  /-- Stop decided by the helper `ShowCommandHelp(n, c)`. -/
  | commandHelp
deriving DecidableEq, Repr

/-- A command: a function of the world that returns a value or stops, and the
world it leaves. -/
def Cmd (α : Type) : Type := World → Except Abort α × World

/-- Return without effect. -/
def Cmd.pure {α : Type} (a : α) : Cmd α := fun w => (Except.ok a, w)

/-- Sequencing: the second command runs only when the first returned. -/
def Cmd.bind {α β : Type} (m : Cmd α) (f : α → Cmd β) : Cmd β := fun w =>
  match m w with
  | (Except.ok a, w1) => f a w1
  | (Except.error e, w1) => (Except.error e, w1)

instance : Monad Cmd where
  pure := Cmd.pure
  bind := Cmd.bind

/-- Stop the command. -/
def Cmd.abort {α : Type} (e : Abort) : Cmd α := fun w => (Except.error e, w)

/-- Go type `cli.BoolFlag`. -/
structure BoolFlag where
  Name : String
  Usage : String
deriving DecidableEq, Repr

/-- The part of `cli.Context` the actions read: the positional arguments, the
parsed boolean flags by name, and the name of the running command. -/
structure Context where
  Args : List String
  Bool : String → Bool
  CommandName : String

/-- Collaborators of `servercode.go` that the file itself does not define. -/
structure Env where
  /-- Field `globalConfig.AppId`. -/
  AppId : String
  /-- Method `globalConfig.HttpHeadersWithAuthorization(contentType)`. -/
  HttpHeadersWithAuthorization : String → Headers
  /-- The server as seen through `HttpGet`, `HttpPost`, `HttpPut` and
  `HttpDelete`: given the requests issued before and the request, the response
  body, or `none` when the helper fails. -/
  transport : List Request → Request → Option Bytes
  /-- Library function `ioutil.ReadFile`; `none` when it returns an error. -/
  ReadFile : String → Option Bytes
  /-- Library function `terminal.IsTerminal` on standard input. -/
  IsTerminal : Bool
  /-- What reading `os.Stdin` to its end yields. -/
  Stdin : Bytes
  /-- Library call `json.Unmarshal(b, &ver)` for `ver map[string]string`: the
  map it leaves in `ver`, and whether it returned an error. -/
  UnmarshalMap : Bytes → List (String × String) × Bool
  /-- Library call `json.Unmarshal(b, &vers)` for `vers Versions`: the value it
  leaves in `vers`, and whether it returned an error. -/
  UnmarshalVersions : Bytes → Versions × Bool
  /-- Library call `t.Format("2006-01-02 15:04:05")` in the local zone. -/
  Format : Time → String
  /-- Library call `sort.Sort(data)` on a `RawVersions`: the slice contents
  after the call. -/
  sortSort : RawVersions → RawVersions
  /-- Text written by the library call `cli.ShowCommandHelp(c, name)`. -/
  CommandHelp : String → Bytes
  /-- Helper `ShowCommandHelp(n, c)` of the client. -/
  ShowCommandHelp : Nat → Context → Cmd Unit

/-- What the documentation of `sort.Sort` promises, read on `RawVersions`: the
slice is rearranged (only `Swap` modifies it) and afterwards no element is
`Less` than an element before it. The documentation adds that the sort is not
guaranteed to be stable. -/
def SortContract (sort : RawVersions → RawVersions) : Prop :=
  ∀ data : RawVersions,
    (sort data).Perm data ∧
    ∀ i j : Nat, i < j → j < (sort data).Len → (sort data).Less j i = some false

/-- One call of `fmt.Printf` writing the given bytes. -/
def Printf (out : Bytes) : Cmd Unit := fun w =>
  (Except.ok (), { w with stdout := w.stdout ++ [out] })

/-- Modelled from the spec: the transport helpers `HttpGet`, `HttpPost`,
`HttpPut` and `HttpDelete` are defined in another file of the client. Each
call issues one HTTP request, and a transport failure stops the command. Here
the request is appended to the log and the answer is taken from
`env.transport`. -/
def send (env : Env) (req : Request) : Cmd Bytes := fun w =>
  let w1 : World := { w with requests := w.requests ++ [req] }
  match env.transport w.requests req with
  | some b => (Except.ok b, w1)
  | none => (Except.error Abort.transport, w1)

/-- Modelled from the spec: helper `HttpGet(path, headers).Bytes()`, one GET
request without a body. -/
def HttpGet (env : Env) (path : String) (headers : Headers) : Cmd Bytes :=
  send env ⟨Method.GET, path, headers, []⟩

/-- Modelled from the spec: helper `HttpPost(path, headers, body).Bytes()`, one
POST request whose body is the content of the reader. -/
def HttpPost (env : Env) (path : String) (headers : Headers) (body : Bytes) : Cmd Bytes :=
  send env ⟨Method.POST, path, headers, body⟩

/-- Modelled from the spec: helper `HttpPut(path, headers, body).Bytes()`, one
PUT request whose body is the content of the reader. -/
def HttpPut (env : Env) (path : String) (headers : Headers) (body : Bytes) : Cmd Bytes :=
  send env ⟨Method.PUT, path, headers, body⟩

/-- Modelled from the spec: helper `HttpDelete(path, headers).Bytes()`, one
DELETE request without a body. -/
def HttpDelete (env : Env) (path : String) (headers : Headers) : Cmd Bytes :=
  send env ⟨Method.DELETE, path, headers, []⟩

/-! ## The functions of servercode.go -/

/-- Function `ActivateServerCode`. -/
def ActivateServerCode (env : Env) (version : String) : Cmd Unit := do
  let path := "/apps/" ++ env.AppId ++ "/server-code/versions/current"
  let headers := env.HttpHeadersWithAuthorization "text/plain"
  let _ ← HttpPut env path headers (toBytes version)
  pure ()

/-- Function `DeployServerCode`. The error of `json.Unmarshal` is dropped, as
in the source. -/
def DeployServerCode (env : Env) (serverCodePath : String) (activate : Bool) : Cmd Unit := do
  let code ← (match env.ReadFile serverCodePath with
    | some code => pure code
    | none => Cmd.abort Abort.readFile : Cmd Bytes)
  let path := "/apps/" ++ env.AppId ++ "/server-code"
  let headers := env.HttpHeadersWithAuthorization "application/javascript"
  let b ← HttpPost env path headers code
  let ver := (env.UnmarshalMap b).1
  Printf (toBytes ("versionID: " ++ mapIndex ver "versionID" ++ "\n"))
  if activate then
    ActivateServerCode env (mapIndex ver "versionID")

/-- Function `InvokeServerCode`. -/
def InvokeServerCode (env : Env) (entryName : String) (version : String) : Cmd Unit := do
  let path := "/apps/" ++ env.AppId ++ "/server-code/versions/" ++ version ++ "/" ++ entryName
  let headers := env.HttpHeadersWithAuthorization "application/json"
  let b ← (if env.IsTerminal then
      HttpPost env path headers (toBytes "\x7b\x7d")
    else
      HttpPost env path headers env.Stdin)
  Printf (b ++ toBytes "\n")

/-- Function `ListVersions`. -/
def ListVersions (env : Env) : Cmd Versions := do
  let path := "/apps/" ++ env.AppId ++ "/server-code/versions"
  let headers := env.HttpHeadersWithAuthorization ""
  let b ← HttpGet env path headers
  let r := env.UnmarshalVersions b
  if r.2 then
    Cmd.abort Abort.decode
  else
    pure r.1

/-- The body of the `range` loop of `PrintVersions`, run over the remaining
records. -/
def PrintVersions.loop (env : Env) (quite active : Bool) : List RawVersion → Cmd Unit
  | [] => pure ()
  | raw :: rest => do
    let v := raw.Version
    let t := env.Format v.CreatedAt
    if active && !raw.Active then
      PrintVersions.loop env quite active rest
    else
      if quite then
        Printf (toBytes (v.VersionId ++ "\n"))
      else
        Printf (toBytes (v.VersionId ++ "\t" ++ t ++ "\t" ++ v.Active ++ "\n"))
      PrintVersions.loop env quite active rest

/-- Function `PrintVersions`. -/
def PrintVersions (env : Env) (vers : Versions) (quite active : Bool) : Cmd Unit :=
  PrintVersions.loop env quite active (env.sortSort vers.Versions)

/-- Function `ListServerCode`. -/
def ListServerCode (env : Env) (quite active : Bool) : Cmd Unit := do
  let vers ← ListVersions env
  PrintVersions env vers quite active

/-- Function `GetServerCode`. -/
def GetServerCode (env : Env) (version : String) : Cmd Unit := do
  let path := "/apps/" ++ env.AppId ++ "/server-code/versions/" ++ version
  let headers := env.HttpHeadersWithAuthorization ""
  let b ← HttpGet env path headers
  Printf (b ++ toBytes "\n")

/-- Function `DeleteServerCode`. -/
def DeleteServerCode (env : Env) (version : String) : Cmd Unit := do
  let path := "/apps/" ++ env.AppId ++ "/server-code/versions/" ++ version
  let headers := env.HttpHeadersWithAuthorization ""
  let b ← HttpDelete env path headers
  Printf (b ++ toBytes "\n")

/-! ## The command table -/

/-- Expression `c.Args()[i]`. -/
def argAt (c : Context) (i : Nat) : Cmd String :=
  match c.Args[i]? with
  | some a => pure a
  | none => Cmd.abort Abort.indexOutOfRange

/-- The two statements `cli.ShowCommandHelp(c, c.Command.Name)` and
`os.Exit(ExitIllegalNumberOfArgs)`. -/
def helpAndExit {α : Type} (env : Env) (c : Context) : Cmd α := do
  Printf (env.CommandHelp c.CommandName)
  Cmd.abort Abort.illegalNumberOfArgs

/-- The loop of the `servercode:get` action that picks the version: `ver`
becomes the identifier of the first active record and the loop breaks. -/
def activeVersion : List RawVersion → String → String
  | [], ver => ver
  | v :: rest, ver => if v.Active then v.VersionId else activeVersion rest ver

/-- Action of `servercode:list`. -/
def listAction (env : Env) (c : Context) : Cmd Unit :=
  ListServerCode env (c.Bool "quite") (c.Bool "active")

/-- Action of `servercode:deploy`. -/
def deployAction (env : Env) (c : Context) : Cmd Unit := do
  env.ShowCommandHelp 1 c
  let a0 ← argAt c 0
  DeployServerCode env a0 (c.Bool "activate")

/-- Action of `servercode:get`. -/
def getAction (env : Env) (c : Context) : Cmd Unit := do
  if c.Args.length > 1 then
    helpAndExit env c
  let ver ← (if c.Args.length = 1 then
      argAt c 0
    else do
      let vers ← ListVersions env
      pure (activeVersion vers.Versions ""))
  GetServerCode env ver

/-- Action of `servercode:invoke`. -/
def invokeAction (env : Env) (c : Context) : Cmd Unit := do
  if c.Args.length > 2 || c.Args.length = 0 then
    helpAndExit env c
  let version ← (if c.Args.length = 2 then argAt c 1 else pure "current")
  let a0 ← argAt c 0
  InvokeServerCode env a0 version

/-- Action of `servercode:activate`. -/
def activateAction (env : Env) (c : Context) : Cmd Unit := do
  env.ShowCommandHelp 1 c
  let a0 ← argAt c 0
  ActivateServerCode env a0

/-- Action of `servercode:delete`. -/
def deleteAction (env : Env) (c : Context) : Cmd Unit := do
  env.ShowCommandHelp 1 c
  let a0 ← argAt c 0
  DeleteServerCode env a0

/-- Go type `cli.Command`, with the fields the table sets. -/
structure Command where
  Name : String
  Usage : String
  Description : String
  Flags : List BoolFlag
  Action : Env → Context → Cmd Unit

/-- Variable `ServerCodeCommands`. -/
def ServerCodeCommands : List Command :=
  [ { Name := "servercode:list",
      Usage := "List versions of server code",
      Description := "",
      Flags := [⟨"quite, q", "Print only versionID"⟩, ⟨"active, a", "Print only active one"⟩],
      Action := listAction },
    { Name := "servercode:deploy",
      Usage := "Deploy a server code",
      Description := "",
      Flags := [⟨"activate", "Activate after deploying"⟩],
      Action := deployAction },
    { Name := "servercode:get",
      Usage := "Get specified server code",
      Description := "",
      Flags := [],
      Action := getAction },
    { Name := "servercode:invoke",
      Usage := "Invoke an entry point of server code",
      Description := "arguments: <entry-name> [version]",
      Flags := [],
      Action := invokeAction },
    { Name := "servercode:activate",
      Usage := "Activate a version",
      Description := "",
      Flags := [],
      Action := activateAction },
    { Name := "servercode:delete",
      Usage := "Delete an entry point of server code",
      Description := "",
      Flags := [],
      Action := deleteAction } ]

/-- Split at every comma (`strings.Split(name, ",")`). -/
def splitComma : List Char → List (List Char)
  | [] => [[]]
  | c :: cs =>
    if c = ',' then
      [] :: splitComma cs
    else
      match splitComma cs with
      | [] => [[c]]
      | p :: ps => (c :: p) :: ps

/-- Remove leading and trailing spaces (`strings.Trim(name, " ")`). -/
def trimSpaces (cs : List Char) : List Char :=
  ((cs.dropWhile (fun c => c = ' ')).reverse.dropWhile (fun c => c = ' ')).reverse

/-- The names a flag answers to: the library splits the `Name` field of a flag
at commas and trims each part, so that `"active, a"` declares the long name
`active` and the short name `a`. -/
def flagNames (f : BoolFlag) : List String :=
  (splitComma f.Name.toList).map (fun p => String.mk (trimSpaces p))

/-! ## The sort of the Go library

Function `sort.Sort` of the Go standard library (package `sort`, the
pattern-defeating quicksort of Go 1.19 and later), read on `RawVersions`: it
touches the slice through `Len`, `Less` and `Swap` only. Up to twelve elements
it is an insertion sort. Loops that Go writes without a bound carry a counter
here; `none` stands for an index panic or an exhausted counter, and
`sortSort_spec` shows that neither occurs. -/

namespace GoSort

/-- The inner loop of `insertionSort`:
`for j := i; j > a && data.Less(j, j-1); j-- { data.Swap(j, j-1) }`. -/
def insertionSort.inner (a : Nat) : Nat → RawVersions → Option RawVersions
  | 0, data => some data
  | j + 1, data =>
    if j + 1 > a then
      match data.Less (j + 1) j with
      | none => none
      | some true => (data.Swap (j + 1) j).bind (insertionSort.inner a j)
      | some false => some data
    else
      some data

/-- The outer loop of `insertionSort`, `for i := a + 1; i < b; i++`, with the
number of rounds left. -/
def insertionSort.loop (a : Nat) : Nat → Nat → RawVersions → Option RawVersions
  | 0, _, data => some data
  | n + 1, i, data => (insertionSort.inner a i data).bind (insertionSort.loop a n (i + 1))

/-- Function `insertionSort(data, a, b)`. -/
def insertionSort (data : RawVersions) (a b : Nat) : Option RawVersions :=
  insertionSort.loop a (b - (a + 1)) (a + 1) data

/-- The loop of `siftDown`. -/
def siftDown.loop (hi first : Nat) : Nat → Nat → RawVersions → Option RawVersions
  | 0, _, _ => none
  | fuel + 1, root, data =>
    let child := 2 * root + 1
    if child ≥ hi then
      some data
    else
      match (if child + 1 < hi then data.Less (first + child) (first + child + 1)
             else some false) with
      | none => none
      | some right =>
        let child := if right then child + 1 else child
        match data.Less (first + root) (first + child) with
        | none => none
        | some false => some data
        | some true =>
          (data.Swap (first + root) (first + child)).bind (siftDown.loop hi first fuel child)

/-- Function `siftDown(data, lo, hi, first)`. -/
def siftDown (data : RawVersions) (lo hi first : Nat) : Option RawVersions :=
  siftDown.loop hi first (hi + 1) lo data

/-- First loop of `heapSort`: `for i := (hi - 1) / 2; i >= 0; i--`, with `n`
one more than `i`. -/
def heapSort.build (hi first : Nat) : Nat → RawVersions → Option RawVersions
  | 0, data => some data
  | i + 1, data => (siftDown data i hi first).bind (heapSort.build hi first i)

/-- Second loop of `heapSort`: `for i := hi - 1; i >= 0; i--`, with `n` one
more than `i`. -/
def heapSort.pop (first : Nat) : Nat → RawVersions → Option RawVersions
  | 0, data => some data
  | i + 1, data =>
    ((data.Swap first (first + i)).bind (fun d => siftDown d 0 i first)).bind
      (heapSort.pop first i)

/-- Function `heapSort(data, a, b)`. -/
def heapSort (data : RawVersions) (a b : Nat) : Option RawVersions :=
  let first := a
  let hi := b - a
  (heapSort.build hi first ((hi - 1) / 2 + 1) data).bind (heapSort.pop first hi)

/-- Go type `sortedHint`. -/
inductive sortedHint where
  | unknownHint
  | increasingHint
  | decreasingHint
deriving DecidableEq, Repr

/-- Function `order2(data, a, b, swaps)`; returns the two indices and the
counter. -/
def order2 (data : RawVersions) (a b swaps : Nat) : Option (Nat × Nat × Nat) :=
  match data.Less b a with
  | none => none
  | some true => some (b, a, swaps + 1)
  | some false => some (a, b, swaps)

/-- Function `median(data, a, b, c, swaps)`; returns the index and the
counter. -/
def median (data : RawVersions) (a b c swaps : Nat) : Option (Nat × Nat) :=
  match order2 data a b swaps with
  | none => none
  | some (a, b, swaps) =>
    match order2 data b c swaps with
    | none => none
    | some (b, _, swaps) =>
      match order2 data a b swaps with
      | none => none
      | some (_, b, swaps) => some (b, swaps)

/-- Function `medianAdjacent(data, a, swaps)`. -/
def medianAdjacent (data : RawVersions) (a swaps : Nat) : Option (Nat × Nat) :=
  median data (a - 1) a (a + 1) swaps

/-- Function `choosePivot(data, a, b)`. -/
def choosePivot (data : RawVersions) (a b : Nat) : Option (Nat × sortedHint) :=
  let shortestNinther := 50
  let maxSwaps := 4 * 3
  let l := b - a
  let swaps := 0
  let i := a + l / 4 * 1
  let j := a + l / 4 * 2
  let k := a + l / 4 * 3
  let r : Option (Nat × Nat) :=
    if l ≥ 8 then
      let r3 : Option (Nat × Nat × Nat × Nat) :=
        if l ≥ shortestNinther then
          match medianAdjacent data i swaps with
          | none => none
          | some (i, swaps) =>
            match medianAdjacent data j swaps with
            | none => none
            | some (j, swaps) =>
              match medianAdjacent data k swaps with
              | none => none
              | some (k, swaps) => some (i, j, k, swaps)
        else some (i, j, k, swaps)
      match r3 with
      | none => none
      | some (i, j, k, swaps) => median data i j k swaps
    else some (j, swaps)
  match r with
  | none => none
  | some (j, swaps) =>
    if swaps = 0 then some (j, sortedHint.increasingHint)
    else if swaps = maxSwaps then some (j, sortedHint.decreasingHint)
    else some (j, sortedHint.unknownHint)

/-- The loop of `reverseRange`: `for i < j { data.Swap(i, j); i++; j-- }`. -/
def reverseRange.loop : Nat → Nat → Nat → RawVersions → Option RawVersions
  | 0, _, _, _ => none
  | fuel + 1, i, j, data =>
    if i < j then
      (data.Swap i j).bind (reverseRange.loop fuel (i + 1) (j - 1))
    else
      some data

/-- Function `reverseRange(data, a, b)`. -/
def reverseRange (data : RawVersions) (a b : Nat) : Option RawVersions :=
  reverseRange.loop (b - a + 1) a (b - 1) data

/-- Method `Next` of Go type `xorshift`, on the 64-bit state. The sort takes
the step of its generator as an argument (`next`), and nothing proved of the
sort depends on which step it is. -/
def xorshiftNext (r : Nat) : Nat :=
  let r := (r ^^^ (r <<< 13)) % 2 ^ 64
  let r := (r ^^^ (r >>> 7)) % 2 ^ 64
  let r := (r ^^^ (r <<< 17)) % 2 ^ 64
  r

/-- Function `bits.Len`. -/
def bitsLen (n : Nat) : Nat := if n = 0 then 0 else Nat.log2 n + 1

/-- Function `nextPowerOfTwo(length)`. -/
def nextPowerOfTwo (length : Nat) : Nat := 2 ^ bitsLen length

/-- The loop of `breakPatterns`, `for i := 0; i < 3; i++`, with the number of
rounds left. -/
def breakPatterns.loop (next : Nat → Nat) (a length modulus idx : Nat) :
    Nat → Nat → Nat → RawVersions → Option RawVersions
  | 0, _, _, data => some data
  | n + 1, i, random, data =>
    let random := next random
    let other := random &&& (modulus - 1)
    let other := if other ≥ length then other - length else other
    (data.Swap (idx - 1 + i) (a + other)).bind
      (breakPatterns.loop next a length modulus idx n (i + 1) random)

/-- Function `breakPatterns(data, a, b)`. -/
def breakPatterns (next : Nat → Nat) (data : RawVersions) (a b : Nat) :
    Option RawVersions :=
  let length := b - a
  if length ≥ 8 then
    let random := length
    let modulus := nextPowerOfTwo length
    let idx := a + (length / 4) * 2 - 1
    breakPatterns.loop next a length modulus idx 3 0 random data
  else
    some data

/-- Loop `for i <= j && data.Less(i, a) { i++ }` of `partition`; returns `i`. -/
def partition.up (data : RawVersions) (a j : Nat) : Nat → Nat → Option Nat
  | 0, _ => none
  | fuel + 1, i =>
    if i ≤ j then
      match data.Less i a with
      | none => none
      | some true => partition.up data a j fuel (i + 1)
      | some false => some i
    else
      some i

/-- Loop `for i <= j && !data.Less(j, a) { j-- }` of `partition`; returns `j`. -/
def partition.down (data : RawVersions) (a i : Nat) : Nat → Nat → Option Nat
  | 0, _ => none
  | fuel + 1, j =>
    if i ≤ j then
      match data.Less j a with
      | none => none
      | some false => partition.down data a i fuel (j - 1)
      | some true => some j
    else
      some j

/-- The unbounded loop of `partition`; returns the data and `j`. -/
def partition.loop (a : Nat) : Nat → Nat → Nat → RawVersions → Option (RawVersions × Nat)
  | 0, _, _, _ => none
  | fuel + 1, i, j, data =>
    match partition.up data a j (j + 2 - i) i with
    | none => none
    | some i =>
      match partition.down data a i (j + 2 - i) j with
      | none => none
      | some j =>
        if i > j then
          some (data, j)
        else
          (data.Swap i j).bind (partition.loop a fuel (i + 1) (j - 1))

/-- Function `partition(data, a, b, pivot)`; returns the data, `newpivot` and
`alreadyPartitioned`. -/
def partition (data : RawVersions) (a b pivot : Nat) : Option (RawVersions × Nat × Bool) :=
  match data.Swap a pivot with
  | none => none
  | some data =>
    let i := a + 1
    let j := b - 1
    match partition.up data a j (j + 2 - i) i with
    | none => none
    | some i =>
      match partition.down data a i (j + 2 - i) j with
      | none => none
      | some j =>
        if i > j then
          (data.Swap j a).map (fun d => (d, j, true))
        else
          match data.Swap i j with
          | none => none
          | some data =>
            match partition.loop a (j + 1 - i) (i + 1) (j - 1) data with
            | none => none
            | some (data, j) => (data.Swap j a).map (fun d => (d, j, false))

/-- Loop `for i <= j && !data.Less(a, i) { i++ }` of `partitionEqual`. -/
def partitionEqual.up (data : RawVersions) (a j : Nat) : Nat → Nat → Option Nat
  | 0, _ => none
  | fuel + 1, i =>
    if i ≤ j then
      match data.Less a i with
      | none => none
      | some false => partitionEqual.up data a j fuel (i + 1)
      | some true => some i
    else
      some i

/-- Loop `for i <= j && data.Less(a, j) { j-- }` of `partitionEqual`. -/
def partitionEqual.down (data : RawVersions) (a i : Nat) : Nat → Nat → Option Nat
  | 0, _ => none
  | fuel + 1, j =>
    if i ≤ j then
      match data.Less a j with
      | none => none
      | some true => partitionEqual.down data a i fuel (j - 1)
      | some false => some j
    else
      some j

/-- The unbounded loop of `partitionEqual`; returns the data and `i`. -/
def partitionEqual.loop (a : Nat) :
    Nat → Nat → Nat → RawVersions → Option (RawVersions × Nat)
  | 0, _, _, _ => none
  | fuel + 1, i, j, data =>
    match partitionEqual.up data a j (j + 2 - i) i with
    | none => none
    | some i =>
      match partitionEqual.down data a i (j + 2 - i) j with
      | none => none
      | some j =>
        if i > j then
          some (data, i)
        else
          (data.Swap i j).bind (partitionEqual.loop a fuel (i + 1) (j - 1))

/-- Function `partitionEqual(data, a, b, pivot)`; returns the data and
`newpivot`. -/
def partitionEqual (data : RawVersions) (a b pivot : Nat) : Option (RawVersions × Nat) :=
  match data.Swap a pivot with
  | none => none
  | some data => partitionEqual.loop a (b - a + 1) (a + 1) (b - 1) data

/-- Loop `for i < b && !data.Less(i, i-1) { i++ }` of `partialInsertionSort`. -/
def partialInsertionSort.scan (data : RawVersions) (b : Nat) : Nat → Nat → Option Nat
  | 0, _ => none
  | fuel + 1, i =>
    if i < b then
      match data.Less i (i - 1) with
      | none => none
      | some false => partialInsertionSort.scan data b fuel (i + 1)
      | some true => some i
    else
      some i

/-- Loop `for j := i - 1; j >= 1; j-- { if !data.Less(j, j-1) { break };
data.Swap(j, j-1) }` of `partialInsertionSort`. -/
def partialInsertionSort.left : Nat → RawVersions → Option RawVersions
  | 0, data => some data
  | j + 1, data =>
    if j + 1 ≥ 1 then
      match data.Less (j + 1) j with
      | none => none
      | some false => some data
      | some true => (data.Swap (j + 1) j).bind (partialInsertionSort.left j)
    else
      some data

/-- Loop `for j := i + 1; j < b; j++ { if !data.Less(j, j-1) { break };
data.Swap(j, j-1) }` of `partialInsertionSort`. -/
def partialInsertionSort.right (b : Nat) : Nat → Nat → RawVersions → Option RawVersions
  | 0, _, _ => none
  | fuel + 1, j, data =>
    if j < b then
      match data.Less j (j - 1) with
      | none => none
      | some false => some data
      | some true =>
        (data.Swap j (j - 1)).bind (partialInsertionSort.right b fuel (j + 1))
    else
      some data

/-- The loop `for j := 0; j < maxSteps; j++` of `partialInsertionSort`, with
the number of rounds left. -/
def partialInsertionSort.loop (a b : Nat) :
    Nat → Nat → RawVersions → Option (RawVersions × Bool)
  | 0, _, data => some (data, false)
  | n + 1, i, data =>
    let shortestShifting := 50
    match partialInsertionSort.scan data b (b + 1 - i) i with
    | none => none
    | some i =>
      if i = b then
        some (data, true)
      else if b - a < shortestShifting then
        some (data, false)
      else
        match data.Swap i (i - 1) with
        | none => none
        | some data =>
          match (if i - a ≥ 2 then partialInsertionSort.left (i - 1) data else some data) with
          | none => none
          | some data =>
            match (if b - i ≥ 2 then partialInsertionSort.right b (b - i) (i + 1) data
                   else some data) with
            | none => none
            | some data => partialInsertionSort.loop a b n i data

/-- Function `partialInsertionSort(data, a, b)`; returns the data and the
result. -/
def partialInsertionSort (data : RawVersions) (a b : Nat) : Option (RawVersions × Bool) :=
  let maxSteps := 5
  partialInsertionSort.loop a b maxSteps (a + 1) data

/-- The body of function `pdqsort(data, a, b, limit)`. The argument after
`next` bounds the number of loop rounds and nested calls; the last two are the
variables `wasBalanced` and `wasPartitioned`, which every call starts at
`true`. -/
def pdqsort.go (next : Nat → Nat) :
    Nat → RawVersions → Nat → Nat → Nat → Bool → Bool → Option RawVersions
  | 0, _, _, _, _, _, _ => none
  | fuel + 1, data, a, b, limit, wasBalanced, wasPartitioned =>
    let maxInsertion := 12
    let length := b - a
    if length ≤ maxInsertion then
      insertionSort data a b
    else if limit = 0 then
      heapSort data a b
    else
      match (if !wasBalanced then (breakPatterns next data a b).map (fun d => (d, limit - 1))
             else some (data, limit)) with
      | none => none
      | some (data, limit) =>
        match choosePivot data a b with
        | none => none
        | some (pivot, hint) =>
          match (if hint = sortedHint.decreasingHint then
                   (reverseRange data a b).map
                     (fun d => (d, (b - 1) - (pivot - a), sortedHint.increasingHint))
                 else some (data, pivot, hint)) with
          | none => none
          | some (data, pivot, hint) =>
            match (if wasBalanced && wasPartitioned && hint = sortedHint.increasingHint then
                     partialInsertionSort data a b
                   else some (data, false)) with
            | none => none
            | some (data, true) => some data
            | some (data, false) =>
              match (if a > 0 then (data.Less (a - 1) pivot).map (fun lt => !lt)
                     else some false) with
              | none => none
              | some true =>
                match partitionEqual data a b pivot with
                | none => none
                | some (data, mid) =>
                  pdqsort.go next fuel data mid b limit wasBalanced wasPartitioned
              | some false =>
                match partition data a b pivot with
                | none => none
                | some (data, mid, alreadyPartitioned) =>
                  let wasPartitioned := alreadyPartitioned
                  let leftLen := mid - a
                  let rightLen := b - mid
                  let balanceThreshold := length / 8
                  if leftLen < rightLen then
                    let wasBalanced := decide (leftLen ≥ balanceThreshold)
                    (pdqsort.go next fuel data a mid limit true true).bind
                      (fun d =>
                        pdqsort.go next fuel d (mid + 1) b limit wasBalanced wasPartitioned)
                  else
                    let wasBalanced := decide (rightLen ≥ balanceThreshold)
                    (pdqsort.go next fuel data (mid + 1) b limit true true).bind
                      (fun d => pdqsort.go next fuel d a mid limit wasBalanced wasPartitioned)

/-- Function `pdqsort(data, a, b, limit)`. -/
def pdqsort (next : Nat → Nat) (data : RawVersions) (a b limit : Nat) :
    Option RawVersions :=
  pdqsort.go next (b - a + 1) data a b limit true true

/-- Function `Sort(data)` of package `sort`. -/
def sortSort (next : Nat → Nat) (data : RawVersions) : Option RawVersions :=
  let n := data.Len
  if n ≤ 1 then
    some data
  else
    let limit := bitsLen n
    pdqsort next data 0 n limit

end GoSort

/-! ## Reference values used in the statements -/

/-- The chunk `PrintVersions` writes for a record it does not skip. -/
def printedLine (env : Env) (quite : Bool) (raw : RawVersion) : Bytes :=
  if quite then
    toBytes (raw.VersionId ++ "\n")
  else
    toBytes (raw.VersionId ++ "\t" ++ env.Format raw.Version.CreatedAt ++ "\t"
      ++ raw.Version.Active ++ "\n")

/-- Ascending order of creation timestamps. -/
def createdLE (a b : RawVersion) : Prop := a.CreatedAt ≤ b.CreatedAt

instance : DecidableRel createdLE := fun a b => Int.decLe a.CreatedAt b.CreatedAt

/-- A stable sort by creation timestamp (insertion sort): the order `sort.Stable`
would give. -/
def stableSort (data : RawVersions) : RawVersions := List.insertionSort createdLE data

/-- The records `PrintVersions` writes a chunk for, in the order in which it
writes them: the sorted slice without the records the `continue` skips. -/
def printedRecords (env : Env) (vers : Versions) (active : Bool) : List RawVersion :=
  (env.sortSort vers.Versions).filter (fun r => !active || r.Active)

/-- The version list of the examples, as the server sends it: the active `v2`
first, then the older, inactive `v1`. -/
def demoVersions : RawVersions :=
  [⟨"v2", 200, 250, true⟩, ⟨"v1", 100, 150, false⟩]

/-- Body the example server sends for a deploy. -/
def demoDeployBody : Bytes := toBytes "\x7b\"versionID\":\"v3\"\x7d"

/-- Body the example server sends for the version list. -/
def demoListBody : Bytes :=
  toBytes ("\x7b\"versions\":["
    ++ "\x7b\"versionID\":\"v2\",\"createdAt\":200,\"modifiedAt\":250,\"current\":true\x7d,"
    ++ "\x7b\"versionID\":\"v1\",\"createdAt\":100,\"modifiedAt\":150,\"current\":false\x7d"
    ++ "]\x7d")

/-- The example environment: the application `app1`, a server that answers a
deploy with the version `v3`, the version list with `demoVersions`, and echoes
the body of any other request; the decoders know these two bodies and report
an error on anything else. -/
def demoEnv : Env where
  AppId := "app1"
  HttpHeadersWithAuthorization := fun contentType =>
    [("authorization", "Bearer t"), ("content-type", contentType)]
  transport := fun _ req =>
    if req.method = Method.POST ∧ req.path = "/apps/app1/server-code" then some demoDeployBody
    else if req.method = Method.GET ∧ req.path = "/apps/app1/server-code/versions" then
      some demoListBody
    else some req.body
  ReadFile := fun p => if p = "main.js" then some (toBytes "function f() \x7b\x7d") else none
  IsTerminal := false
  Stdin := toBytes "\x7b\"x\":1\x7d"
  UnmarshalMap := fun b => if b = demoDeployBody then ([("versionID", "v3")], false) else ([], true)
  UnmarshalVersions := fun b => if b = demoListBody then (⟨demoVersions⟩, false) else (⟨[]⟩, true)
  Format := fun _ => "2006-01-02 15:04:05"
  sortSort := stableSort
  CommandHelp := fun name => toBytes name
  ShowCommandHelp := fun n c => if c.Args.length = n then pure () else Cmd.abort Abort.commandHelp

/-- The world before anything happened. -/
def World.empty : World := ⟨[], []⟩

/-- The request `ListVersions` issues. -/
def listRequest (env : Env) : Request :=
  ⟨Method.GET, "/apps/" ++ env.AppId ++ "/server-code/versions",
   env.HttpHeadersWithAuthorization "", []⟩

/-- The request `GetServerCode` issues for a version. -/
def getRequest (env : Env) (version : String) : Request :=
  ⟨Method.GET, "/apps/" ++ env.AppId ++ "/server-code/versions/" ++ version,
   env.HttpHeadersWithAuthorization "", []⟩

/-- The request `DeployServerCode` issues for the code. -/
def deployRequest (env : Env) (code : Bytes) : Request :=
  ⟨Method.POST, "/apps/" ++ env.AppId ++ "/server-code",
   env.HttpHeadersWithAuthorization "application/javascript", code⟩

/-- The request `ActivateServerCode` issues for a version. -/
def activateRequest (env : Env) (version : String) : Request :=
  ⟨Method.PUT, "/apps/" ++ env.AppId ++ "/server-code/versions/current",
   env.HttpHeadersWithAuthorization "text/plain", toBytes version⟩

/-- The example environment with a server whose answers are not JSON. -/
def brokenServerEnv : Env :=
  { demoEnv with transport := fun _ _ => some (toBytes "<html>Bad Gateway</html>") }

/-- The example environment reading from an interactive terminal. -/
def terminalEnv : Env := { demoEnv with IsTerminal := true }

/-- The slice after the library call `sort.Sort(data)`, for a given step of the
library's generator: the result of `GoSort.sortSort`, which always returns
(`sortSort_spec`). -/
def librarySort (next : Nat → Nat) (data : RawVersions) : RawVersions :=
  match GoSort.sortSort next data with
  | some sorted => sorted
  | none => data

/-- The example environment with the sort of the Go library. -/
def goSortEnv : Env := { demoEnv with sortSort := librarySort GoSort.xorshiftNext }

/-- Thirteen records: `a` created at 200, then `b` to `m`, all created at 100. -/
def thirteenVersions : RawVersions :=
  [⟨"a", 200, 0, false⟩, ⟨"b", 100, 0, false⟩, ⟨"c", 100, 0, false⟩, ⟨"d", 100, 0, false⟩,
   ⟨"e", 100, 0, false⟩, ⟨"f", 100, 0, false⟩, ⟨"g", 100, 0, false⟩, ⟨"h", 100, 0, false⟩,
   ⟨"i", 100, 0, false⟩, ⟨"j", 100, 0, false⟩, ⟨"k", 100, 0, false⟩, ⟨"l", 100, 0, false⟩,
   ⟨"m", 100, 0, false⟩]

/-! ## Notions used to verify the sort -/

/-! ## Reading the slice by index -/

/-- The creation timestamp at an index of the slice (`0` past its end). -/
def keyAt (l : RawVersions) (i : Nat) : Int :=
  match l[i]? with
  | some r => r.CreatedAt
  | none => 0

/-- The slice with the records at two indices exchanged. -/
def swapAt (l : RawVersions) (i j : Nat) : RawVersions :=
  match l[i]?, l[j]? with
  | some a, some b => (l.set i b).set j a
  | _, _ => l

/-- The part `[a, b)` of the slice is in ascending order of timestamp. -/
def SortedOn (a b : Nat) (l : RawVersions) : Prop :=
  ∀ i j : Nat, a ≤ i → i < j → j < b → keyAt l i ≤ keyAt l j

/-- The slice `l'` is `l` with the part `[a, b)` rearranged: same records
overall, same timestamps outside the part, and whatever holds of every
timestamp of the part before holds of every one after. -/
structure Moves (a b : Nat) (l l' : RawVersions) : Prop where
  length : l'.length = l.length
  perm : l'.Perm l
  outside : ∀ k : Nat, k < a ∨ b ≤ k → keyAt l' k = keyAt l k
  inside : ∀ P : Int → Prop, (∀ k : Nat, a ≤ k → k < b → P (keyAt l k)) →
    ∀ k : Nat, a ≤ k → k < b → P (keyAt l' k)

/-- Heap order at node `r` of the heap laid out from index `first`: no child of
`r` below `hi` has a larger timestamp than `r`. -/
def HeapAt (hi first : Nat) (l : RawVersions) (r : Nat) : Prop :=
  ∀ c : Nat, (c = 2 * r + 1 ∨ c = 2 * r + 2) → c < hi →
    keyAt l (first + c) ≤ keyAt l (first + r)

/-- The part `[a, b)` is split at `mid`: smaller timestamps before `mid`, none
smaller after it. -/
def SplitAt (a mid b : Nat) (l : RawVersions) : Prop :=
  (∀ k : Nat, a ≤ k → k < mid → keyAt l k < keyAt l mid) ∧
  (∀ k : Nat, mid < k → k < b → keyAt l mid ≤ keyAt l k)

/-- Nothing before the part `[a, b)` is above anything in it. -/
def LeftLE (a b : Nat) (l : RawVersions) : Prop :=
  ∀ k m : Nat, k < a → a ≤ m → m < b → keyAt l k ≤ keyAt l m

/-- From `l` to `l'` no two records in ascending order of timestamp, equal
timestamps included, change their relative order. -/
def KeepsOrder (l l' : RawVersions) : Prop :=
  ∀ a b : RawVersion, a.CreatedAt ≤ b.CreatedAt → List.Sublist [a, b] l →
    List.Sublist [a, b] l'

/-! # Theorems -/

/-! ## Running commands -/

@[simp] theorem run_pure {α : Type} (a : α) (w : World) :
    (pure a : Cmd α) w = (Except.ok a, w) := rfl

@[simp] theorem run_bind {α β : Type} (m : Cmd α) (f : α → Cmd β) (w : World) :
    (m >>= f) w =
      match m w with
      | (Except.ok a, w1) => f a w1
      | (Except.error e, w1) => (Except.error e, w1) := rfl

@[simp] theorem Printf_run (out : Bytes) (w : World) :
    Printf out w = (Except.ok (), { w with stdout := w.stdout ++ [out] }) := rfl

theorem PrintVersions_loop_run (env : Env) (quite active : Bool) (l : List RawVersion)
    (w : World) :
    PrintVersions.loop env quite active l w =
      (Except.ok (), { w with stdout := w.stdout ++
        (l.filter (fun r => !active || r.Active)).map (printedLine env quite) }) := by
  induction l generalizing w with
  | nil => simp [PrintVersions.loop, run_pure]
  | cons raw rest ih =>
    have hid : raw.Version.VersionId = raw.VersionId := rfl
    cases active <;> cases quite <;> cases hA : raw.Active <;>
      simp [PrintVersions.loop, ih, hA, printedLine, hid]

/-! ## The contract of the sort -/

theorem SortContract.perm {sort : RawVersions → RawVersions} (h : SortContract sort)
    (data : RawVersions) : (sort data).Perm data := (h data).1

theorem SortContract.sorted {sort : RawVersions → RawVersions} (h : SortContract sort)
    (data : RawVersions) : (sort data).Pairwise createdLE := by
  rw [List.pairwise_iff_getElem]
  intro i j hi hj hij
  have h2 := (h data).2 i j hij hj
  unfold RawVersions.Less at h2
  rw [List.getElem?_eq_getElem hi, List.getElem?_eq_getElem hj] at h2
  simp at h2
  exact h2

theorem createdLE_stableSort (data : RawVersions) : (stableSort data).Pairwise createdLE := by
  haveI : IsTotal RawVersion createdLE := ⟨fun a b => Int.le_total a.CreatedAt b.CreatedAt⟩
  haveI : IsTrans RawVersion createdLE := ⟨fun a b c hab hbc => Int.le_trans hab hbc⟩
  exact List.sorted_insertionSort createdLE data

theorem pairwise_createdLE_Less {l : RawVersions} (h : l.Pairwise createdLE) (i j : Nat)
    (hij : i < j) (hj : j < l.Len) : l.Less j i = some false := by
  have hj2 : j < l.length := hj
  have hi : i < l.length := Nat.lt_trans hij hj2
  have := (List.pairwise_iff_getElem.mp h) i j hi hj2 hij
  unfold RawVersions.Less
  rw [List.getElem?_eq_getElem hi, List.getElem?_eq_getElem hj2]
  simp
  exact this

/-- The reference sort is stable: two records in ascending order of timestamp,
equal timestamps included, keep their relative order. -/
theorem stableSort_stable (data : RawVersions) (a b : RawVersion)
    (hab : a.CreatedAt ≤ b.CreatedAt) (h : List.Sublist [a, b] data) :
    List.Sublist [a, b] (stableSort data) := by
  haveI : IsTotal RawVersion createdLE := ⟨fun a b => Int.le_total a.CreatedAt b.CreatedAt⟩
  haveI : IsTrans RawVersion createdLE := ⟨fun a b c hab hbc => Int.le_trans hab hbc⟩
  exact List.pair_sublist_insertionSort hab h

theorem SortContract_stableSort : SortContract stableSort := fun data =>
  ⟨List.perm_insertionSort createdLE data,
   pairwise_createdLE_Less (createdLE_stableSort data)⟩

/-! # The library sort, verified -/

theorem Less_eq {l : RawVersions} {i j : Nat} (hi : i < l.length) (hj : j < l.length) :
    l.Less i j = some (decide (keyAt l i < keyAt l j)) := by
  simp [RawVersions.Less, keyAt, List.getElem?_eq_getElem hi, List.getElem?_eq_getElem hj]

theorem Swap_eq {l : RawVersions} {i j : Nat} (hi : i < l.length) (hj : j < l.length) :
    l.Swap i j = some (swapAt l i j) := by
  simp [RawVersions.Swap, swapAt, List.getElem?_eq_getElem hi, List.getElem?_eq_getElem hj]

theorem length_swapAt (l : RawVersions) (i j : Nat) : (swapAt l i j).length = l.length := by
  unfold swapAt
  split <;> simp

theorem keyAt_swapAt {l : RawVersions} {i j : Nat} (hi : i < l.length) (hj : j < l.length)
    (k : Nat) :
    keyAt (swapAt l i j) k =
      if k = j then keyAt l i else if k = i then keyAt l j else keyAt l k := by
  simp only [swapAt, keyAt, List.getElem?_eq_getElem hi, List.getElem?_eq_getElem hj,
    List.getElem?_set]
  by_cases h1 : k = j
  · subst h1
    simp [hi, hj]
  · by_cases h2 : k = i
    · subst h2
      have : ¬ j = k := fun h => h1 h.symm
      simp [h1, this, hi]
    · have h3 : ¬ j = k := fun h => h1 h.symm
      have h4 : ¬ i = k := fun h => h2 h.symm
      simp [h1, h2, h3, h4]

theorem swapAt_perm {l : RawVersions} {i j : Nat} (hi : i < l.length) (hj : j < l.length) :
    (swapAt l i j).Perm l := by
  simp only [swapAt, List.getElem?_eq_getElem hi, List.getElem?_eq_getElem hj]
  by_cases hij : i = j
  · subst hij
    have e : (l.set i l[i]).set i l[i] = l := by
      apply List.ext_getElem?
      intro k
      simp only [List.getElem?_set]
      by_cases hk : i = k
      · subst hk; simp [hi]
      · simp [hk]
    rw [e]
  · rw [List.perm_iff_count]
    intro x
    have hj2 : j < (l.set i l[j]).length := by simpa using hj
    rw [List.count_set _ _ _ _ hj2, List.count_set _ _ _ _ hi]
    have e1 : (l.set i l[j])[j] = l[j] := by
      rw [List.getElem_set]; simp [hij]
    rw [e1]
    have c1 : l[i] = x → 1 ≤ l.count x := fun h => by
      rw [← h]; exact List.count_pos_iff.mpr (List.getElem_mem hi)
    have c2 : l[j] = x → 1 ≤ l.count x := fun h => by
      rw [← h]; exact List.count_pos_iff.mpr (List.getElem_mem hj)
    by_cases hx : l[i] = x <;> by_cases hy : l[j] = x
    · have := c1 hx
      simp only [hx, hy, beq_self_eq_true, if_true]
      omega
    · have := c1 hx
      simp only [hx, hy, beq_self_eq_true, if_true, beq_iff_eq, if_false]
      omega
    · have := c2 hy
      simp only [hx, hy, beq_self_eq_true, if_true, beq_iff_eq, if_false]
      omega
    · simp only [hx, hy, beq_iff_eq, if_false]
      omega

theorem Moves.refl (a b : Nat) (l : RawVersions) : Moves a b l l :=
  ⟨rfl, List.Perm.refl l, fun _ _ => rfl, fun _ h => h⟩

theorem Moves.trans {a b : Nat} {l1 l2 l3 : RawVersions} (h12 : Moves a b l1 l2)
    (h23 : Moves a b l2 l3) : Moves a b l1 l3 :=
  ⟨h23.length.trans h12.length, h23.perm.trans h12.perm,
   fun k hk => (h23.outside k hk).trans (h12.outside k hk),
   fun P hP => h23.inside P (h12.inside P hP)⟩

theorem Moves.mono {a b a' b' : Nat} {l l' : RawVersions} (h : Moves a b l l')
    (ha : a' ≤ a) (hb : b ≤ b') : Moves a' b' l l' := by
  refine ⟨h.length, h.perm, fun k hk => h.outside k (by omega), ?_⟩
  intro P hP k hk1 hk2
  by_cases hin : a ≤ k ∧ k < b
  · exact h.inside P (fun m hm1 hm2 => hP m (by omega) (by omega)) k hin.1 hin.2
  · rw [h.outside k (by omega)]
    exact hP k hk1 hk2

theorem Moves.swap {a b : Nat} {l : RawVersions} {i j : Nat} (hb : b ≤ l.length)
    (hi1 : a ≤ i) (hi2 : i < b) (hj1 : a ≤ j) (hj2 : j < b) : Moves a b l (swapAt l i j) := by
  have hi : i < l.length := by omega
  have hj : j < l.length := by omega
  refine ⟨length_swapAt l i j, swapAt_perm hi hj, ?_, ?_⟩
  · intro k hk
    rw [keyAt_swapAt hi hj]
    have h1 : k ≠ j := by omega
    have h2 : k ≠ i := by omega
    simp [h1, h2]
  · intro P hP k hk1 hk2
    rw [keyAt_swapAt hi hj]
    split
    · exact hP i hi1 hi2
    · split
      · exact hP j hj1 hj2
      · exact hP k hk1 hk2

/-- A rearrangement of `[a, b)` leaves a sorted part before `a` sorted. -/
theorem Moves.sortedOn_left {a b c d : Nat} {l l' : RawVersions} (h : Moves a b l l')
    (hd : d ≤ a) (hs : SortedOn c d l) : SortedOn c d l' := by
  intro i j hi hij hj
  rw [h.outside i (by omega), h.outside j (by omega)]
  exact hs i j hi hij hj

/-- A rearrangement of `[a, b)` leaves a sorted part from `b` on sorted. -/
theorem Moves.sortedOn_right {a b c d : Nat} {l l' : RawVersions} (h : Moves a b l l')
    (hc : b ≤ c) (hs : SortedOn c d l) : SortedOn c d l' := by
  intro i j hi hij hj
  rw [h.outside i (by omega), h.outside j (by omega)]
  exact hs i j hi hij hj

theorem keyAt_swapAt_fst {l : RawVersions} {i j : Nat} (hi : i < l.length)
    (hj : j < l.length) : keyAt (swapAt l i j) i = keyAt l j := by
  rw [keyAt_swapAt hi hj]
  by_cases h : i = j
  · subst h; simp
  · simp [h]

theorem keyAt_swapAt_snd {l : RawVersions} {i j : Nat} (hi : i < l.length)
    (hj : j < l.length) : keyAt (swapAt l i j) j = keyAt l i := by
  rw [keyAt_swapAt hi hj]
  simp

theorem keyAt_swapAt_ne {l : RawVersions} {i j k : Nat} (hi : i < l.length)
    (hj : j < l.length) (h1 : k ≠ i) (h2 : k ≠ j) : keyAt (swapAt l i j) k = keyAt l k := by
  rw [keyAt_swapAt hi hj]
  simp [h1, h2]

/-! ## Insertion sort -/

/-- The inner loop of the insertion sorts, started at position `j` with the
part `[a, j)` sorted, the part `[j, i]` sorted and nothing of `[a, j)` above
anything of `(j, i]`: it leaves `[a, i]` sorted. The loop may be allowed to
run down to `c ≤ a`, provided nothing in `[c, a)` is above the part. -/
theorem inner_spec (c a i : Nat) (hca : c ≤ a) :
    ∀ (j : Nat) (l : RawVersions), a ≤ j → j ≤ i → i < l.length →
      SortedOn a j l → SortedOn j (i + 1) l →
      (∀ p q : Nat, a ≤ p → p < j → j < q → q ≤ i → keyAt l p ≤ keyAt l q) →
      (∀ k m : Nat, c ≤ k → k < a → a ≤ m → m ≤ i → keyAt l k ≤ keyAt l m) →
      ∃ l', GoSort.insertionSort.inner c j l = some l' ∧ Moves a (i + 1) l l' ∧
        SortedOn a (i + 1) l' := by
  intro j
  induction j with
  | zero =>
    intro l ha _ _ _ hs2 _ _
    have ha0 : a = 0 := by omega
    subst ha0
    exact ⟨l, rfl, Moves.refl _ _ _, hs2⟩
  | succ j ih =>
    intro l ha hji hil hs1 hs2 hcross hleft
    have hj1 : j + 1 < l.length := by omega
    have hj0 : j < l.length := by omega
    unfold GoSort.insertionSort.inner
    by_cases hc : j + 1 > c
    · simp only [hc, if_true, Less_eq hj1 hj0]
      by_cases hlt : keyAt l (j + 1) < keyAt l j
      · simp only [hlt, decide_True, Swap_eq hj1 hj0, Option.bind_eq_bind, Option.some_bind]
        by_cases haj : a ≤ j
        · have kj : keyAt (swapAt l (j + 1) j) j = keyAt l (j + 1) := keyAt_swapAt_snd hj1 hj0
          have kj1 : keyAt (swapAt l (j + 1) j) (j + 1) = keyAt l j := keyAt_swapAt_fst hj1 hj0
          have kne : ∀ k, k ≠ j + 1 → k ≠ j → keyAt (swapAt l (j + 1) j) k = keyAt l k :=
            fun k h1 h2 => keyAt_swapAt_ne hj1 hj0 h1 h2
          have hm : Moves a (i + 1) l (swapAt l (j + 1) j) :=
            Moves.swap (by omega) (by omega) (by omega) haj (by omega)
          obtain ⟨l', h1, h2, h3⟩ := ih (swapAt l (j + 1) j) haj (by omega)
            (by rw [length_swapAt]; exact hil)
            (by
              intro p q hp hpq hq
              rw [kne p (by omega) (by omega), kne q (by omega) (by omega)]
              exact hs1 p q hp hpq (by omega))
            (by
              intro p q hp hpq hq
              by_cases e1 : p = j
              · subst e1
                by_cases e4 : q = p + 1
                · subst e4
                  rw [kj, kj1]
                  omega
                · rw [kj, kne q (by omega) (by omega)]
                  exact hs2 (p + 1) q (by omega) (by omega) hq
              · by_cases e5 : p = j + 1
                · subst e5
                  rw [kj1, kne q (by omega) (by omega)]
                  exact hcross j q haj (by omega) (by omega) (by omega)
                · rw [kne p (by omega) (by omega), kne q (by omega) (by omega)]
                  exact hs2 p q (by omega) hpq hq)
            (by
              intro p q hp hpj hjq hqi
              rw [kne p (by omega) (by omega)]
              by_cases e4 : q = j + 1
              · subst e4
                rw [kj1]
                exact hs1 p j hp hpj (by omega)
              · rw [kne q (by omega) (by omega)]
                exact hcross p q hp (by omega) (by omega) hqi)
            (by
              intro k m hk1 hk2 hm1 hm2
              rw [kne k (by omega) (by omega)]
              exact hm.inside (fun x => keyAt l k ≤ x)
                (fun m hm1 hm2 => hleft k m hk1 hk2 hm1 (by omega)) m hm1 (by omega))
          exact ⟨l', h1, hm.trans h2, h3⟩
        · -- the position is `a` itself: nothing before it is above it
          exfalso
          have haeq : a = j + 1 := by omega
          have := hleft j (j + 1) (by omega) (by omega) (by omega) (by omega)
          omega
      · simp only [hlt, decide_False]
        refine ⟨l, rfl, Moves.refl _ _ _, ?_⟩
        intro p q hp hpq hq
        by_cases hq1 : q ≤ j
        · exact hs1 p q hp hpq (by omega)
        · by_cases hp1 : j + 1 ≤ p
          · exact hs2 p q hp1 hpq hq
          · by_cases hq2 : q = j + 1
            · subst hq2
              by_cases hp2 : p = j
              · subst hp2; omega
              · have := hs1 p j hp (by omega) (by omega)
                omega
            · exact hcross p q hp (by omega) (by omega) (by omega)
    · simp only [hc, if_false]
      refine ⟨l, rfl, Moves.refl _ _ _, ?_⟩
      have : a = j + 1 := by omega
      subst this
      exact hs2

theorem insertionSort_loop_spec (a : Nat) :
    ∀ (n i : Nat) (l : RawVersions), a < i → i + n ≤ l.length → SortedOn a i l →
      ∃ l', GoSort.insertionSort.loop a n i l = some l' ∧ Moves a (i + n) l l' ∧
        SortedOn a (i + n) l' := by
  intro n
  induction n with
  | zero =>
    intro i l _ _ hs
    exact ⟨l, rfl, Moves.refl _ _ _, hs⟩
  | succ n ih =>
    intro i l hai hlen hs
    obtain ⟨l1, h1, hm1, hs1⟩ := inner_spec a a i (Nat.le_refl a) i l (by omega) (Nat.le_refl i)
      (by omega) hs (fun p q hp hpq hq => by omega) (fun p q _ hp hq hqi => by omega)
      (fun k m hk1 hk2 => by omega)
    obtain ⟨l2, h2, hm2, hs2⟩ := ih (i + 1) l1 (by omega) (by rw [hm1.length]; omega) hs1
    refine ⟨l2, ?_, ?_, ?_⟩
    · unfold GoSort.insertionSort.loop
      rw [h1]
      exact h2
    · have := hm1.mono (Nat.le_refl a) (show i + 1 ≤ i + 1 + n by omega)
      have e : i + (n + 1) = i + 1 + n := by omega
      rw [e]
      exact this.trans hm2
    · have e : i + (n + 1) = i + 1 + n := by omega
      rw [e]
      exact hs2

/-- Function `insertionSort` sorts the part `[a, b)` in place. -/
theorem insertionSort_spec (l : RawVersions) (a b : Nat) (hb : b ≤ l.length) :
    ∃ l', GoSort.insertionSort l a b = some l' ∧ Moves a b l l' ∧ SortedOn a b l' := by
  unfold GoSort.insertionSort
  by_cases hab : a + 1 ≤ b
  · obtain ⟨l', h1, h2, h3⟩ := insertionSort_loop_spec a (b - (a + 1)) (a + 1) l (by omega)
      (by omega) (fun p q hp hpq hq => by omega)
    have e : a + 1 + (b - (a + 1)) = b := by omega
    rw [e] at h2 h3
    exact ⟨l', h1, h2, h3⟩
  · have e : b - (a + 1) = 0 := by omega
    rw [e]
    exact ⟨l, rfl, Moves.refl _ _ _, fun p q hp hpq hq => by omega⟩

/-! ## Heap sort -/

theorem siftDown_loop_spec (hi first lo : Nat) :
    ∀ (fuel root : Nat) (l : RawVersions), first + hi ≤ l.length → lo ≤ root →
      root ≤ hi → hi < fuel + root →
      (∀ r : Nat, lo ≤ r → r < hi → r ≠ root → HeapAt hi first l r) →
      (∀ p c : Nat, lo ≤ p → (root = 2 * p + 1 ∨ root = 2 * p + 2) →
        (c = 2 * root + 1 ∨ c = 2 * root + 2) → c < hi →
        keyAt l (first + c) ≤ keyAt l (first + p)) →
      ∃ l', GoSort.siftDown.loop hi first fuel root l = some l' ∧
        Moves first (first + hi) l l' ∧ ∀ r : Nat, lo ≤ r → r < hi → HeapAt hi first l' r := by
  intro fuel
  induction fuel with
  | zero =>
    intro root l _ _ hroothi hfuel _ _
    exfalso
    omega
  | succ fuel ih =>
    intro root l hlen hlo hroothi hfuel hheap hgrand
    unfold GoSort.siftDown.loop
    simp only []
    by_cases hchild : 2 * root + 1 ≥ hi
    · simp only [hchild, if_true]
      refine ⟨l, rfl, Moves.refl _ _ _, ?_⟩
      intro r hr1 hr2
      by_cases hrr : r = root
      · subst hrr
        intro c hc hc2
        omega
      · exact hheap r hr1 hr2 hrr
    · simp only [hchild, if_false]
      have hroot : root < hi := by omega
      -- the larger child
      have hsel : ∃ ch : Nat, (ch = 2 * root + 1 ∨ ch = 2 * root + 2) ∧ ch < hi ∧
          (if 2 * root + 1 + 1 < hi then
              l.Less (first + (2 * root + 1)) (first + (2 * root + 1) + 1)
            else some false) =
            some (decide (ch = 2 * root + 2)) ∧
          (∀ c : Nat, (c = 2 * root + 1 ∨ c = 2 * root + 2) → c < hi →
            keyAt l (first + c) ≤ keyAt l (first + ch)) := by
        by_cases h2 : 2 * root + 1 + 1 < hi
        · rw [if_pos h2, Less_eq (by omega) (by omega)]
          by_cases hlt : keyAt l (first + (2 * root + 1)) < keyAt l (first + (2 * root + 1) + 1)
          · refine ⟨2 * root + 2, Or.inr rfl, by omega, by simp [hlt], ?_⟩
            intro c hc hc2
            rcases hc with hc | hc
            · subst hc
              have e : first + (2 * root + 1) + 1 = first + (2 * root + 2) := by omega
              rw [e] at hlt
              omega
            · subst hc
              exact Int.le_refl _
          · refine ⟨2 * root + 1, Or.inl rfl, by omega, by simp [hlt], ?_⟩
            intro c hc hc2
            rcases hc with hc | hc
            · subst hc
              exact Int.le_refl _
            · subst hc
              have e : first + (2 * root + 1) + 1 = first + (2 * root + 2) := by omega
              rw [e] at hlt
              omega
        · rw [if_neg h2]
          refine ⟨2 * root + 1, Or.inl rfl, by omega, by simp, ?_⟩
          intro c hc hc2
          rcases hc with hc | hc
          · subst hc
            exact Int.le_refl _
          · omega
      obtain ⟨ch, hch, hchhi, hselq, hmax⟩ := hsel
      rw [hselq]
      have hchild' : (if decide (ch = 2 * root + 2) = true then 2 * root + 1 + 1
          else 2 * root + 1) = ch := by
        rcases hch with h | h
        · have : ¬ ch = 2 * root + 2 := by omega
          simp [this, h]
        · simp [h]
      simp only [hchild']
      rw [Less_eq (by omega) (by omega)]
      by_cases hlt : keyAt l (first + root) < keyAt l (first + ch)
      · simp only [hlt, decide_True]
        rw [Swap_eq (by omega) (by omega)]
        simp only [Option.bind_eq_bind, Option.some_bind]
        have hA : first + root < l.length := by omega
        have hB : first + ch < l.length := by omega
        have k1 : keyAt (swapAt l (first + root) (first + ch)) (first + root)
            = keyAt l (first + ch) := keyAt_swapAt_fst hA hB
        have k2 : keyAt (swapAt l (first + root) (first + ch)) (first + ch)
            = keyAt l (first + root) := keyAt_swapAt_snd hA hB
        have k3 : ∀ k, k ≠ root → k ≠ ch →
            keyAt (swapAt l (first + root) (first + ch)) (first + k) = keyAt l (first + k) :=
          fun k h1 h2 => keyAt_swapAt_ne hA hB (by omega) (by omega)
        have hm : Moves first (first + hi) l (swapAt l (first + root) (first + ch)) :=
          Moves.swap hlen (by omega) (by omega) (by omega) (by omega)
        obtain ⟨l', h1, h2, h3⟩ := ih ch (swapAt l (first + root) (first + ch))
          (by rw [length_swapAt]; exact hlen) (by omega) (by omega) (by omega)
          (by
            intro r hr1 hr2 hrne c hc hc2
            by_cases hr : r = root
            · subst hr
              by_cases hcc : c = ch
              · subst hcc
                rw [k1, k2]
                omega
              · rw [k1, k3 c (by omega) hcc]
                exact hmax c hc hc2
            · by_cases hcr : c = root
              · -- `r` is the parent of the root
                subst hcr
                rw [k1, k3 r hr hrne]
                exact hgrand r ch hr1 (by omega) hch hchhi
              · have hcch : c ≠ ch := by omega
                rw [k3 c hcr hcch, k3 r hr hrne]
                exact hheap r hr1 hr2 hr c hc hc2)
          (by
            intro p c hp hpc hc hc2
            have hpr : p = root := by omega
            subst hpr
            rw [k1, k3 c (by omega) (by omega)]
            exact hheap ch (by omega) hchhi (by omega) c hc hc2)
        exact ⟨l', h1, hm.trans h2, h3⟩
      · simp only [hlt, decide_False]
        refine ⟨l, rfl, Moves.refl _ _ _, ?_⟩
        intro r hr1 hr2
        by_cases hrr : r = root
        · subst hrr
          intro c hc hc2
          have := hmax c hc hc2
          omega
        · exact hheap r hr1 hr2 hrr

/-- Function `siftDown` makes the nodes from `lo` on a heap when those after
`lo` are one. -/
theorem siftDown_spec (l : RawVersions) (lo hi first : Nat) (hlen : first + hi ≤ l.length)
    (hlohi : lo ≤ hi)
    (hheap : ∀ r : Nat, lo < r → r < hi → HeapAt hi first l r) :
    ∃ l', GoSort.siftDown l lo hi first = some l' ∧ Moves first (first + hi) l l' ∧
      ∀ r : Nat, lo ≤ r → r < hi → HeapAt hi first l' r := by
  unfold GoSort.siftDown
  exact siftDown_loop_spec hi first lo (hi + 1) lo l hlen (Nat.le_refl lo) hlohi (by omega)
    (fun r hr1 hr2 hr3 => hheap r (by omega) hr2)
    (fun p c hp hpc _ _ => by omega)

theorem heapSort_build_spec (hi first : Nat) :
    ∀ (n : Nat) (l : RawVersions), first + hi ≤ l.length → n ≤ hi + 1 →
      (∀ r : Nat, n ≤ r → r < hi → HeapAt hi first l r) →
      ∃ l', GoSort.heapSort.build hi first n l = some l' ∧ Moves first (first + hi) l l' ∧
        ∀ r : Nat, r < hi → HeapAt hi first l' r := by
  intro n
  induction n with
  | zero =>
    intro l _ _ hheap
    exact ⟨l, rfl, Moves.refl _ _ _, fun r hr => hheap r (Nat.zero_le r) hr⟩
  | succ n ih =>
    intro l hlen hn hheap
    obtain ⟨l1, h1, hm1, hh1⟩ := siftDown_spec l n hi first hlen (by omega)
      (fun r hr1 hr2 => hheap r (by omega) hr2)
    obtain ⟨l2, h2, hm2, hh2⟩ := ih l1 (by rw [hm1.length]; exact hlen) (by omega) hh1
    refine ⟨l2, ?_, hm1.trans hm2, hh2⟩
    unfold GoSort.heapSort.build
    rw [h1]
    exact h2

/-- The root of a heap carries the largest timestamp. -/
theorem heap_root_max (hi first : Nat) (l : RawVersions)
    (hheap : ∀ r : Nat, r < hi → HeapAt hi first l r) :
    ∀ r : Nat, r < hi → keyAt l (first + r) ≤ keyAt l (first + 0) := by
  intro r
  induction r using Nat.strong_induction_on with
  | _ r ih =>
    intro hr
    by_cases h0 : r = 0
    · subst h0
      exact Int.le_refl _
    · have hp : (r - 1) / 2 < r := by omega
      have h1 := ih ((r - 1) / 2) hp (by omega)
      have h2 := hheap ((r - 1) / 2) (by omega) r (by omega) hr
      omega

theorem heapSort_pop_spec (first hi : Nat) :
    ∀ (n : Nat) (l : RawVersions), n ≤ hi → first + hi ≤ l.length →
      (∀ r : Nat, r < n → HeapAt n first l r) →
      SortedOn (first + n) (first + hi) l →
      (∀ r m : Nat, r < n → n ≤ m → m < hi → keyAt l (first + r) ≤ keyAt l (first + m)) →
      ∃ l', GoSort.heapSort.pop first n l = some l' ∧ Moves first (first + hi) l l' ∧
        SortedOn first (first + hi) l' := by
  intro n
  induction n with
  | zero =>
    intro l _ _ _ hs _
    exact ⟨l, rfl, Moves.refl _ _ _, by simpa using hs⟩
  | succ i ih =>
    intro l hn hlen hheap hs hle
    have hA : first < l.length := by omega
    have hB : first + i < l.length := by omega
    have hmax := heap_root_max (i + 1) first l hheap
    have k1 : keyAt (swapAt l first (first + i)) first = keyAt l (first + i) :=
      keyAt_swapAt_fst hA hB
    have k2 : keyAt (swapAt l first (first + i)) (first + i) = keyAt l first :=
      keyAt_swapAt_snd hA hB
    have k3 : ∀ k, k ≠ first → k ≠ first + i →
        keyAt (swapAt l first (first + i)) k = keyAt l k :=
      fun k h1 h2 => keyAt_swapAt_ne hA hB h1 h2
    have hm0 : Moves first (first + (i + 1)) l (swapAt l first (first + i)) :=
      Moves.swap (by omega) (by omega) (by omega) (by omega) (by omega)
    obtain ⟨l1, h1, hm1, hh1⟩ := siftDown_spec (swapAt l first (first + i)) 0 i first
      (by rw [length_swapAt]; omega) (Nat.zero_le i)
      (by
        intro r hr1 hr2 c hc hc2
        rw [k3 (first + c) (by omega) (by omega), k3 (first + r) (by omega) (by omega)]
        exact hheap r (by omega) c hc (by omega))
    -- bounds on the part still to be popped
    have hbound : ∀ r : Nat, r < i → keyAt l1 (first + r) ≤ keyAt l (first + 0) := by
      intro r hr
      have := hm1.inside (fun x => x ≤ keyAt l (first + 0))
        (by
          intro k hk1 hk2
          by_cases hk : k = first
          · subst hk
            rw [k1]
            exact hmax i (by omega)
          · rw [k3 k hk (by omega)]
            have := hmax (k - first) (by omega)
            have e : first + (k - first) = k := by omega
            rw [e] at this
            exact this)
        (first + r) (by omega) (by omega)
      exact this
    have hout1 : ∀ k : Nat, first + i ≤ k → keyAt l1 k = keyAt (swapAt l first (first + i)) k :=
      fun k hk => hm1.outside k (by omega)
    obtain ⟨l2, h2, hm2, hs2⟩ := ih l1 (by omega)
      (by rw [hm1.length, length_swapAt]; exact hlen)
      (fun r hr => hh1 r (Nat.zero_le r) hr)
      (by
        intro p q hp hpq hq
        rw [hout1 p (by omega), hout1 q (by omega)]
        by_cases hpi : p = first + i
        · subst hpi
          rw [k2, k3 q (by omega) (by omega)]
          have := hle 0 (q - first) (by omega) (by omega) (by omega)
          have e : first + (q - first) = q := by omega
          rw [e] at this
          simpa using this
        · rw [k3 p (by omega) hpi, k3 q (by omega) (by omega)]
          exact hs p q (by omega) hpq hq)
      (by
        intro r m hr hm hmhi
        rw [hout1 (first + m) (by omega)]
        by_cases hmi : m = i
        · subst hmi
          rw [k2]
          simpa using hbound r hr
        · rw [k3 (first + m) (by omega) (by omega)]
          have h3 := hbound r hr
          have h4 := hle 0 m (by omega) (by omega) hmhi
          omega)
    refine ⟨l2, ?_, ?_, hs2⟩
    · unfold GoSort.heapSort.pop
      rw [Swap_eq hA hB]
      simp only [Option.bind_eq_bind, Option.some_bind]
      rw [h1]
      exact h2
    · exact (hm0.mono (Nat.le_refl _) (by omega)).trans
        ((hm1.mono (Nat.le_refl _) (by omega)).trans hm2)

/-- Function `heapSort` sorts the part `[a, b)` in place. -/
theorem heapSort_spec (l : RawVersions) (a b : Nat) (hab : a ≤ b) (hb : b ≤ l.length) :
    ∃ l', GoSort.heapSort l a b = some l' ∧ Moves a b l l' ∧ SortedOn a b l' := by
  unfold GoSort.heapSort
  simp only []
  have hlen : a + (b - a) ≤ l.length := by omega
  obtain ⟨l1, h1, hm1, hh1⟩ := heapSort_build_spec (b - a) a ((b - a - 1) / 2 + 1) l hlen
    (by omega)
    (by
      intro r hr1 hr2 c hc hc2
      omega)
  obtain ⟨l2, h2, hm2, hs2⟩ := heapSort_pop_spec a (b - a) (b - a) l1 (Nat.le_refl _)
    (by rw [hm1.length]; exact hlen) hh1
    (fun p q hp hpq hq => by omega)
    (fun r m hr hm hmhi => by omega)
  have e : a + (b - a) = b := by omega
  rw [e] at hm1 hm2 hs2
  refine ⟨l2, ?_, hm1.trans hm2, hs2⟩
  rw [h1]
  exact h2

/-! ## Partition -/

theorem partition_up_spec (l : RawVersions) (a j : Nat) (ha : a < l.length)
    (hj : j < l.length) :
    ∀ (fuel i : Nat), j + 1 < fuel + i → i ≤ j + 1 →
      ∃ i', GoSort.partition.up l a j fuel i = some i' ∧ i ≤ i' ∧ i' ≤ j + 1 ∧
        (∀ k : Nat, i ≤ k → k < i' → keyAt l k < keyAt l a) ∧
        (i' ≤ j → ¬ keyAt l i' < keyAt l a) := by
  intro fuel
  induction fuel with
  | zero => intro i h1 h2; exfalso; omega
  | succ fuel ih =>
    intro i hfuel hij
    unfold GoSort.partition.up
    by_cases h : i ≤ j
    · simp only [h, if_true, Less_eq (show i < l.length by omega) ha]
      by_cases hlt : keyAt l i < keyAt l a
      · simp only [hlt, decide_True]
        obtain ⟨i', h1, h2, h3, h4, h5⟩ := ih (i + 1) (by omega) (by omega)
        refine ⟨i', h1, by omega, h3, ?_, h5⟩
        intro k hk1 hk2
        by_cases hk : k = i
        · subst hk; exact hlt
        · exact h4 k (by omega) hk2
      · simp only [hlt, decide_False]
        exact ⟨i, rfl, Nat.le_refl i, hij, fun k hk1 hk2 => by omega, fun _ => hlt⟩
    · simp only [h, if_false]
      exact ⟨i, rfl, Nat.le_refl i, hij, fun k hk1 hk2 => by omega, fun h' => by omega⟩

theorem partition_down_spec (l : RawVersions) (a i : Nat) (ha : a < l.length) (hi : 1 ≤ i) :
    ∀ (fuel j : Nat), j < l.length → j + 1 < fuel + i → i ≤ j + 1 →
      ∃ j', GoSort.partition.down l a i fuel j = some j' ∧ j' ≤ j ∧ i ≤ j' + 1 ∧
        (∀ k : Nat, j' < k → k ≤ j → ¬ keyAt l k < keyAt l a) ∧
        (i ≤ j' → keyAt l j' < keyAt l a) := by
  intro fuel
  induction fuel with
  | zero => intro j _ h1 h2; exfalso; omega
  | succ fuel ih =>
    intro j hj hfuel hij
    unfold GoSort.partition.down
    by_cases h : i ≤ j
    · simp only [h, if_true, Less_eq hj ha]
      by_cases hlt : keyAt l j < keyAt l a
      · simp only [hlt, decide_True]
        exact ⟨j, rfl, Nat.le_refl j, hij, fun k hk1 hk2 => by omega, fun _ => hlt⟩
      · simp only [hlt, decide_False]
        obtain ⟨j', h1, h2, h3, h4, h5⟩ := ih (j - 1) (by omega) (by omega) (by omega)
        refine ⟨j', h1, by omega, h3, ?_, h5⟩
        intro k hk1 hk2
        by_cases hk : k = j
        · subst hk; exact hlt
        · exact h4 k hk1 (by omega)
    · simp only [h, if_false]
      exact ⟨j, rfl, Nat.le_refl j, hij, fun k hk1 hk2 => by omega, fun h' => by omega⟩

theorem partition_loop_spec (a b : Nat) :
    ∀ (fuel i j : Nat) (l : RawVersions), a + 1 ≤ i → i ≤ j + 1 → j < b → b ≤ l.length →
      j + 2 ≤ fuel + i →
      (∀ k : Nat, a + 1 ≤ k → k < i → keyAt l k < keyAt l a) →
      (∀ k : Nat, j < k → k < b → ¬ keyAt l k < keyAt l a) →
      ∃ l' j', GoSort.partition.loop a fuel i j l = some (l', j') ∧ Moves (a + 1) b l l' ∧
        a ≤ j' ∧ j' < b ∧
        (∀ k : Nat, a + 1 ≤ k → k ≤ j' → keyAt l' k < keyAt l' a) ∧
        (∀ k : Nat, j' < k → k < b → ¬ keyAt l' k < keyAt l' a) := by
  intro fuel
  induction fuel with
  | zero => intro i j l _ h1 _ _ h2; exfalso; omega
  | succ fuel ih =>
    intro i j l hai hij hjb hb hfuel hlow hhigh
    have ha : a < l.length := by omega
    obtain ⟨i1, hu, hu1, hu2, hu3, hu4⟩ :=
      partition_up_spec l a j ha (by omega) (j + 2 - i) i (by omega) hij
    obtain ⟨j1, hd, hd1, hd2, hd3, hd4⟩ :=
      partition_down_spec l a i1 ha (by omega) (j + 2 - i1) j (by omega) (by omega) hu2
    unfold GoSort.partition.loop
    rw [hu]
    simp only []
    rw [hd]
    simp only []
    by_cases hgt : i1 > j1
    · simp only [hgt, if_true]
      refine ⟨l, j1, rfl, Moves.refl _ _ _, by omega, by omega, ?_, ?_⟩
      · intro k hk1 hk2
        by_cases hk : k < i
        · exact hlow k hk1 hk
        · exact hu3 k (by omega) (by omega)
      · intro k hk1 hk2
        by_cases hk : k ≤ j
        · exact hd3 k hk1 hk
        · exact hhigh k (by omega) hk2
    · simp only [hgt, if_false]
      have hle : i1 ≤ j1 := by omega
      have hx := hu4 (by omega)
      have hy := hd4 hle
      have hne : i1 ≠ j1 := by
        intro h; rw [h] at hx; exact hx hy
      have hA : i1 < l.length := by omega
      have hB : j1 < l.length := by omega
      rw [Swap_eq hA hB]
      simp only [Option.bind_eq_bind, Option.some_bind]
      have k1 : keyAt (swapAt l i1 j1) i1 = keyAt l j1 := keyAt_swapAt_fst hA hB
      have k2 : keyAt (swapAt l i1 j1) j1 = keyAt l i1 := keyAt_swapAt_snd hA hB
      have k3 : ∀ k, k ≠ i1 → k ≠ j1 → keyAt (swapAt l i1 j1) k = keyAt l k :=
        fun k h1 h2 => keyAt_swapAt_ne hA hB h1 h2
      have hm : Moves (a + 1) b l (swapAt l i1 j1) :=
        Moves.swap hb (by omega) (by omega) (by omega) (by omega)
      obtain ⟨l', j', h1, h2, h3, h4, h5, h6⟩ := ih (i1 + 1) (j1 - 1) (swapAt l i1 j1)
        (by omega) (by omega) (by omega) (by rw [length_swapAt]; exact hb) (by omega)
        (by
          intro k hk1 hk2
          rw [k3 a (by omega) (by omega)]
          by_cases hk : k = i1
          · subst hk; rw [k1]; exact hy
          · rw [k3 k hk (by omega)]
            by_cases hki : k < i
            · exact hlow k hk1 hki
            · exact hu3 k (by omega) (by omega))
        (by
          intro k hk1 hk2
          rw [k3 a (by omega) (by omega)]
          by_cases hk : k = j1
          · subst hk; rw [k2]; exact hx
          · rw [k3 k (by omega) hk]
            by_cases hkj : k ≤ j
            · exact hd3 k (by omega) hkj
            · exact hhigh k (by omega) hk2)
      exact ⟨l', j', h1, hm.trans h2, h3, h4, h5, h6⟩

/-- The last step of `partition`: the pivot, kept at `a`, goes to its place. -/
theorem partition_finish (l : RawVersions) (a b j : Nat) (haj : a ≤ j) (hjb : j < b)
    (hb : b ≤ l.length)
    (hlow : ∀ k : Nat, a + 1 ≤ k → k ≤ j → keyAt l k < keyAt l a)
    (hhigh : ∀ k : Nat, j < k → k < b → ¬ keyAt l k < keyAt l a) :
    Moves a b l (swapAt l j a) ∧
      (∀ k : Nat, a ≤ k → k < j → keyAt (swapAt l j a) k < keyAt (swapAt l j a) j) ∧
      (∀ k : Nat, j < k → k < b → keyAt (swapAt l j a) j ≤ keyAt (swapAt l j a) k) := by
  have hA : j < l.length := by omega
  have hB : a < l.length := by omega
  have k1 : keyAt (swapAt l j a) j = keyAt l a := keyAt_swapAt_fst hA hB
  have k2 : keyAt (swapAt l j a) a = keyAt l j := keyAt_swapAt_snd hA hB
  have k3 : ∀ k, k ≠ j → k ≠ a → keyAt (swapAt l j a) k = keyAt l k :=
    fun k h1 h2 => keyAt_swapAt_ne hA hB h1 h2
  refine ⟨Moves.swap hb haj hjb (Nat.le_refl a) (by omega), ?_, ?_⟩
  · intro k hk1 hk2
    rw [k1]
    by_cases hk : k = a
    · subst hk
      rw [k2]
      exact hlow j (by omega) (Nat.le_refl j)
    · rw [k3 k (by omega) hk]
      exact hlow k (by omega) (by omega)
  · intro k hk1 hk2
    rw [k1, k3 k (by omega) (by omega)]
    have := hhigh k hk1 hk2
    omega

/-- Function `partition` splits the part `[a, b)` around the pivot: it returns
the place `mid` of the pivot, with smaller timestamps before it and none
smaller after it. -/
theorem partition_spec (l : RawVersions) (a b pivot : Nat) (hap : a ≤ pivot) (hpb : pivot < b)
    (hb : b ≤ l.length) :
    ∃ l' mid ap, GoSort.partition l a b pivot = some (l', mid, ap) ∧ Moves a b l l' ∧
      a ≤ mid ∧ mid < b ∧
      (∀ k : Nat, a ≤ k → k < mid → keyAt l' k < keyAt l' mid) ∧
      (∀ k : Nat, mid < k → k < b → keyAt l' mid ≤ keyAt l' k) := by
  have hA : a < l.length := by omega
  have hP : pivot < l.length := by omega
  have hm0 : Moves a b l (swapAt l a pivot) :=
    Moves.swap hb (Nat.le_refl a) (by omega) hap hpb
  have hlen0 : (swapAt l a pivot).length = l.length := length_swapAt _ _ _
  obtain ⟨i1, hu, hu1, hu2, hu3, hu4⟩ :=
    partition_up_spec (swapAt l a pivot) a (b - 1) (by omega) (by omega)
      (b - 1 + 2 - (a + 1)) (a + 1) (by omega) (by omega)
  obtain ⟨j1, hd, hd1, hd2, hd3, hd4⟩ :=
    partition_down_spec (swapAt l a pivot) a i1 (by omega) (by omega)
      (b - 1 + 2 - i1) (b - 1) (by omega) (by omega) hu2
  unfold GoSort.partition
  rw [Swap_eq hA hP]
  simp only []
  rw [hu]
  simp only []
  rw [hd]
  simp only []
  by_cases hgt : i1 > j1
  · simp only [hgt, if_true]
    rw [Swap_eq (by omega) (by omega)]
    obtain ⟨f1, f2, f3⟩ := partition_finish (swapAt l a pivot) a b j1 (by omega) (by omega)
      (by omega)
      (fun k hk1 hk2 => hu3 k hk1 (by omega))
      (fun k hk1 hk2 => hd3 k hk1 (by omega))
    exact ⟨_, j1, true, rfl, hm0.trans f1, by omega, by omega, f2, f3⟩
  · simp only [hgt, if_false]
    have hle : i1 ≤ j1 := by omega
    have hx := hu4 (by omega)
    have hy := hd4 hle
    have hne : i1 ≠ j1 := by
      intro h; rw [h] at hx; exact hx hy
    have hA1 : i1 < (swapAt l a pivot).length := by omega
    have hB1 : j1 < (swapAt l a pivot).length := by omega
    rw [Swap_eq hA1 hB1]
    simp only []
    have k1 : keyAt (swapAt (swapAt l a pivot) i1 j1) i1 = keyAt (swapAt l a pivot) j1 :=
      keyAt_swapAt_fst hA1 hB1
    have k2 : keyAt (swapAt (swapAt l a pivot) i1 j1) j1 = keyAt (swapAt l a pivot) i1 :=
      keyAt_swapAt_snd hA1 hB1
    have k3 : ∀ k, k ≠ i1 → k ≠ j1 →
        keyAt (swapAt (swapAt l a pivot) i1 j1) k = keyAt (swapAt l a pivot) k :=
      fun k h1 h2 => keyAt_swapAt_ne hA1 hB1 h1 h2
    have hm1 : Moves a b (swapAt l a pivot) (swapAt (swapAt l a pivot) i1 j1) :=
      Moves.swap (by omega) (by omega) (by omega) (by omega) (by omega)
    obtain ⟨l2, j2, h1, h2, h3, h4, h5, h6⟩ := partition_loop_spec a b (j1 + 1 - i1) (i1 + 1)
      (j1 - 1) (swapAt (swapAt l a pivot) i1 j1)
      (by omega) (by omega) (by omega) (by rw [length_swapAt]; omega) (by omega)
      (by
        intro k hk1 hk2
        rw [k3 a (by omega) (by omega)]
        by_cases hk : k = i1
        · subst hk; rw [k1]; exact hy
        · rw [k3 k hk (by omega)]
          exact hu3 k (by omega) (by omega))
      (by
        intro k hk1 hk2
        rw [k3 a (by omega) (by omega)]
        by_cases hk : k = j1
        · subst hk; rw [k2]; exact hx
        · rw [k3 k (by omega) hk]
          exact hd3 k (by omega) (by omega))
    rw [h1]
    simp only []
    have hlen2 : l2.length = l.length := by
      rw [h2.length, length_swapAt, length_swapAt]
    rw [Swap_eq (by omega) (by omega)]
    obtain ⟨f1, f2, f3⟩ := partition_finish l2 a b j2 h3 h4 (by omega) h5 h6
    exact ⟨_, j2, false, rfl,
      hm0.trans (hm1.trans ((h2.mono (by omega) (Nat.le_refl b)).trans f1)),
      h3, h4, f2, f3⟩

/-! ## Partition of a part whose pivot is its smallest element -/

theorem partitionEqual_up_spec (l : RawVersions) (a j : Nat) (ha : a < l.length)
    (hj : j < l.length) :
    ∀ (fuel i : Nat), j + 1 < fuel + i → i ≤ j + 1 →
      ∃ i', GoSort.partitionEqual.up l a j fuel i = some i' ∧ i ≤ i' ∧ i' ≤ j + 1 ∧
        (∀ k : Nat, i ≤ k → k < i' → ¬ keyAt l a < keyAt l k) ∧
        (i' ≤ j → keyAt l a < keyAt l i') := by
  intro fuel
  induction fuel with
  | zero => intro i h1 h2; exfalso; omega
  | succ fuel ih =>
    intro i hfuel hij
    unfold GoSort.partitionEqual.up
    by_cases h : i ≤ j
    · simp only [h, if_true, Less_eq ha (show i < l.length by omega)]
      by_cases hlt : keyAt l a < keyAt l i
      · simp only [hlt, decide_True]
        exact ⟨i, rfl, Nat.le_refl i, hij, fun k hk1 hk2 => by omega, fun _ => hlt⟩
      · simp only [hlt, decide_False]
        obtain ⟨i', h1, h2, h3, h4, h5⟩ := ih (i + 1) (by omega) (by omega)
        refine ⟨i', h1, by omega, h3, ?_, h5⟩
        intro k hk1 hk2
        by_cases hk : k = i
        · subst hk; exact hlt
        · exact h4 k (by omega) hk2
    · simp only [h, if_false]
      exact ⟨i, rfl, Nat.le_refl i, hij, fun k hk1 hk2 => by omega, fun h' => by omega⟩

theorem partitionEqual_down_spec (l : RawVersions) (a i : Nat) (ha : a < l.length)
    (hi : 1 ≤ i) :
    ∀ (fuel j : Nat), j < l.length → j + 1 < fuel + i → i ≤ j + 1 →
      ∃ j', GoSort.partitionEqual.down l a i fuel j = some j' ∧ j' ≤ j ∧ i ≤ j' + 1 ∧
        (∀ k : Nat, j' < k → k ≤ j → keyAt l a < keyAt l k) ∧
        (i ≤ j' → ¬ keyAt l a < keyAt l j') := by
  intro fuel
  induction fuel with
  | zero => intro j _ h1 h2; exfalso; omega
  | succ fuel ih =>
    intro j hj hfuel hij
    unfold GoSort.partitionEqual.down
    by_cases h : i ≤ j
    · simp only [h, if_true, Less_eq ha hj]
      by_cases hlt : keyAt l a < keyAt l j
      · simp only [hlt, decide_True]
        obtain ⟨j', h1, h2, h3, h4, h5⟩ := ih (j - 1) (by omega) (by omega) (by omega)
        refine ⟨j', h1, by omega, h3, ?_, h5⟩
        intro k hk1 hk2
        by_cases hk : k = j
        · subst hk; exact hlt
        · exact h4 k hk1 (by omega)
      · simp only [hlt, decide_False]
        exact ⟨j, rfl, Nat.le_refl j, hij, fun k hk1 hk2 => by omega, fun _ => hlt⟩
    · simp only [h, if_false]
      exact ⟨j, rfl, Nat.le_refl j, hij, fun k hk1 hk2 => by omega, fun h' => by omega⟩

theorem partitionEqual_loop_spec (a b : Nat) :
    ∀ (fuel i j : Nat) (l : RawVersions), a + 1 ≤ i → i ≤ j + 1 → j < b → b ≤ l.length →
      j + 2 ≤ fuel + i →
      (∀ k : Nat, a + 1 ≤ k → k < i → ¬ keyAt l a < keyAt l k) →
      (∀ k : Nat, j < k → k < b → keyAt l a < keyAt l k) →
      ∃ l' i', GoSort.partitionEqual.loop a fuel i j l = some (l', i') ∧
        Moves (a + 1) b l l' ∧ a + 1 ≤ i' ∧ i' ≤ b ∧
        (∀ k : Nat, a + 1 ≤ k → k < i' → ¬ keyAt l' a < keyAt l' k) ∧
        (∀ k : Nat, i' ≤ k → k < b → keyAt l' a < keyAt l' k) := by
  intro fuel
  induction fuel with
  | zero => intro i j l _ h1 _ _ h2; exfalso; omega
  | succ fuel ih =>
    intro i j l hai hij hjb hb hfuel hlow hhigh
    have ha : a < l.length := by omega
    obtain ⟨i1, hu, hu1, hu2, hu3, hu4⟩ :=
      partitionEqual_up_spec l a j ha (by omega) (j + 2 - i) i (by omega) hij
    obtain ⟨j1, hd, hd1, hd2, hd3, hd4⟩ :=
      partitionEqual_down_spec l a i1 ha (by omega) (j + 2 - i1) j (by omega) (by omega) hu2
    unfold GoSort.partitionEqual.loop
    rw [hu]
    simp only []
    rw [hd]
    simp only []
    by_cases hgt : i1 > j1
    · simp only [hgt, if_true]
      refine ⟨l, i1, rfl, Moves.refl _ _ _, by omega, by omega, ?_, ?_⟩
      · intro k hk1 hk2
        by_cases hk : k < i
        · exact hlow k hk1 hk
        · exact hu3 k (by omega) (by omega)
      · intro k hk1 hk2
        by_cases hk : k ≤ j
        · exact hd3 k (by omega) hk
        · exact hhigh k (by omega) hk2
    · simp only [hgt, if_false]
      have hle : i1 ≤ j1 := by omega
      have hx := hu4 (by omega)
      have hy := hd4 hle
      have hne : i1 ≠ j1 := by
        intro h; rw [h] at hx; exact hy hx
      have hA : i1 < l.length := by omega
      have hB : j1 < l.length := by omega
      rw [Swap_eq hA hB]
      simp only [Option.bind_eq_bind, Option.some_bind]
      have k1 : keyAt (swapAt l i1 j1) i1 = keyAt l j1 := keyAt_swapAt_fst hA hB
      have k2 : keyAt (swapAt l i1 j1) j1 = keyAt l i1 := keyAt_swapAt_snd hA hB
      have k3 : ∀ k, k ≠ i1 → k ≠ j1 → keyAt (swapAt l i1 j1) k = keyAt l k :=
        fun k h1 h2 => keyAt_swapAt_ne hA hB h1 h2
      have hm : Moves (a + 1) b l (swapAt l i1 j1) :=
        Moves.swap hb (by omega) (by omega) (by omega) (by omega)
      obtain ⟨l', i', h1, h2, h3, h4, h5, h6⟩ := ih (i1 + 1) (j1 - 1) (swapAt l i1 j1)
        (by omega) (by omega) (by omega) (by rw [length_swapAt]; exact hb) (by omega)
        (by
          intro k hk1 hk2
          rw [k3 a (by omega) (by omega)]
          by_cases hk : k = i1
          · subst hk; rw [k1]; exact hy
          · rw [k3 k hk (by omega)]
            by_cases hki : k < i
            · exact hlow k hk1 hki
            · exact hu3 k (by omega) (by omega))
        (by
          intro k hk1 hk2
          rw [k3 a (by omega) (by omega)]
          by_cases hk : k = j1
          · subst hk; rw [k2]; exact hx
          · rw [k3 k (by omega) hk]
            by_cases hkj : k ≤ j
            · exact hd3 k (by omega) hkj
            · exact hhigh k (by omega) hk2)
      exact ⟨l', i', h1, hm.trans h2, h3, h4, h5, h6⟩

/-- Function `partitionEqual`, on a part none of whose timestamps is below the
pivot's: it returns `mid` with the timestamps equal to the pivot's before it
and the larger ones from it on. -/
theorem partitionEqual_spec (l : RawVersions) (a b pivot : Nat) (hap : a ≤ pivot)
    (hpb : pivot < b) (hb : b ≤ l.length)
    (hmin : ∀ k : Nat, a ≤ k → k < b → keyAt l pivot ≤ keyAt l k) :
    ∃ l' mid, GoSort.partitionEqual l a b pivot = some (l', mid) ∧ Moves a b l l' ∧
      a + 1 ≤ mid ∧ mid ≤ b ∧
      (∀ k : Nat, a ≤ k → k < mid → keyAt l' k = keyAt l pivot) ∧
      (∀ k : Nat, mid ≤ k → k < b → keyAt l pivot < keyAt l' k) := by
  have hA : a < l.length := by omega
  have hP : pivot < l.length := by omega
  have hm0 : Moves a b l (swapAt l a pivot) :=
    Moves.swap hb (Nat.le_refl a) (by omega) hap hpb
  have ka : keyAt (swapAt l a pivot) a = keyAt l pivot := keyAt_swapAt_fst hA hP
  obtain ⟨l', mid, h1, h2, h3, h4, h5, h6⟩ := partitionEqual_loop_spec a b (b - a + 1) (a + 1)
    (b - 1) (swapAt l a pivot) (Nat.le_refl _) (by omega) (by omega)
    (by rw [length_swapAt]; exact hb) (by omega)
    (fun k hk1 hk2 => by omega) (fun k hk1 hk2 => by omega)
  have ka' : keyAt l' a = keyAt l pivot := by
    rw [h2.outside a (by omega), ka]
  have hmv : Moves a b l l' := hm0.trans (h2.mono (by omega) (Nat.le_refl b))
  have hmin' : ∀ k : Nat, a ≤ k → k < b → keyAt l pivot ≤ keyAt l' k :=
    hmv.inside (fun x => keyAt l pivot ≤ x) hmin
  unfold GoSort.partitionEqual
  rw [Swap_eq hA hP]
  simp only []
  refine ⟨l', mid, h1, hmv, h3, h4, ?_, ?_⟩
  · intro k hk1 hk2
    by_cases hk : k = a
    · subst hk; exact ka'
    · have hle := h5 k (by omega) hk2
      rw [ka'] at hle
      have hge := hmin' k hk1 (by omega)
      omega
  · intro k hk1 hk2
    have := h6 k hk1 hk2
    rw [ka'] at this
    exact this

/-! ## The helpers of the main loop -/

theorem partialInsertionSort_scan_spec (l : RawVersions) (b : Nat) (hb : b ≤ l.length) :
    ∀ (fuel i : Nat), 1 ≤ i → i ≤ b → b < fuel + i →
      ∃ i', GoSort.partialInsertionSort.scan l b fuel i = some i' ∧ i ≤ i' ∧ i' ≤ b ∧
        (∀ k : Nat, i ≤ k → k < i' → keyAt l (k - 1) ≤ keyAt l k) ∧
        (i' < b → keyAt l i' < keyAt l (i' - 1)) := by
  intro fuel
  induction fuel with
  | zero => intro i _ h1 h2; exfalso; omega
  | succ fuel ih =>
    intro i hi hib hfuel
    unfold GoSort.partialInsertionSort.scan
    by_cases h : i < b
    · simp only [h, if_true, Less_eq (show i < l.length by omega) (show i - 1 < l.length by omega)]
      by_cases hlt : keyAt l i < keyAt l (i - 1)
      · simp only [hlt, decide_True]
        exact ⟨i, rfl, Nat.le_refl i, hib, fun k hk1 hk2 => by omega, fun _ => hlt⟩
      · simp only [hlt, decide_False]
        obtain ⟨i', h1, h2, h3, h4, h5⟩ := ih (i + 1) (by omega) (by omega) (by omega)
        refine ⟨i', h1, by omega, h3, ?_, h5⟩
        intro k hk1 hk2
        by_cases hk : k = i
        · subst hk; omega
        · exact h4 k (by omega) hk2
    · simp only [h, if_false]
      exact ⟨i, rfl, Nat.le_refl i, hib, fun k hk1 hk2 => by omega, fun h' => by omega⟩

theorem partialInsertionSort_left_eq (j : Nat) (l : RawVersions) :
    GoSort.partialInsertionSort.left j l = GoSort.insertionSort.inner 0 j l := by
  induction j generalizing l with
  | zero => rfl
  | succ j ih =>
    unfold GoSort.partialInsertionSort.left GoSort.insertionSort.inner
    have h1 : j + 1 ≥ 1 := by omega
    have h2 : j + 1 > 0 := by omega
    simp only [h1, h2, if_true]
    cases hL : l.Less (j + 1) j with
    | none => rfl
    | some v =>
      cases v with
      | false => rfl
      | true =>
        simp only []
        cases hS : l.Swap (j + 1) j with
        | none => rfl
        | some d => simp only [Option.bind_eq_bind, Option.some_bind]; exact ih d

theorem partialInsertionSort_right_spec (b : Nat) :
    ∀ (fuel j : Nat) (l : RawVersions), 1 ≤ j → j ≤ b → b ≤ l.length → b + 1 ≤ fuel + j →
      ∃ l', GoSort.partialInsertionSort.right b fuel j l = some l' ∧ Moves (j - 1) b l l' := by
  intro fuel
  induction fuel with
  | zero => intro j l _ h1 _ h2; exfalso; omega
  | succ fuel ih =>
    intro j l hj hjb hb hfuel
    unfold GoSort.partialInsertionSort.right
    by_cases h : j < b
    · have hA : j < l.length := by omega
      have hB : j - 1 < l.length := by omega
      simp only [h, if_true, Less_eq hA hB]
      by_cases hlt : keyAt l j < keyAt l (j - 1)
      · simp only [hlt, decide_True, Swap_eq hA hB, Option.bind_eq_bind, Option.some_bind]
        have hm : Moves (j - 1) b l (swapAt l j (j - 1)) :=
          Moves.swap hb (by omega) h (Nat.le_refl _) (by omega)
        obtain ⟨l', h1, h2⟩ := ih (j + 1) (swapAt l j (j - 1)) (by omega) (by omega)
          (by rw [length_swapAt]; exact hb) (by omega)
        exact ⟨l', h1, hm.trans (h2.mono (by omega) (Nat.le_refl b))⟩
      · simp only [hlt, decide_False]
        exact ⟨l, rfl, Moves.refl _ _ _⟩
    · simp only [h, if_false]
      exact ⟨l, rfl, Moves.refl _ _ _⟩

/-- A sorted part grows over positions each of which is not below the one
before it. -/
theorem SortedOn.extend {a i i' : Nat} {l : RawVersions} (hs : SortedOn a i l) (hai : a < i)
    (hadj : ∀ k : Nat, i ≤ k → k < i' → keyAt l (k - 1) ≤ keyAt l k) : SortedOn a i' l := by
  induction i' with
  | zero => intro p q hp hpq hq; omega
  | succ n ih =>
    have ihn := ih (fun k hk1 hk2 => hadj k hk1 (by omega))
    intro p q hp hpq hq
    by_cases hqn : q < n
    · exact ihn p q hp hpq hqn
    · have hq' : q = n := by omega
      subst hq'
      by_cases hqi : q < i
      · exact hs p q hp hpq hqi
      · have h1 := hadj q (by omega) (by omega)
        by_cases hp' : p = q - 1
        · subst hp'; exact h1
        · have := ihn p (q - 1) hp (by omega) (by omega)
          omega

/-- Nothing before the part is above anything in it: this is kept by any
rearrangement of the part. -/
theorem Moves.leftLE {a b : Nat} {l l' : RawVersions} (h : Moves a b l l')
    (hle : ∀ k m : Nat, k < a → a ≤ m → m < b → keyAt l k ≤ keyAt l m) :
    ∀ k m : Nat, k < a → a ≤ m → m < b → keyAt l' k ≤ keyAt l' m := by
  intro k m hk hm1 hm2
  rw [h.outside k (Or.inl hk)]
  exact h.inside (fun x => keyAt l k ≤ x) (fun m hm1 hm2 => hle k m hk hm1 hm2) m hm1 hm2

theorem partialInsertionSort_loop_spec (a b : Nat) :
    ∀ (n i : Nat) (l : RawVersions), a + 1 ≤ i → i ≤ b → b ≤ l.length → SortedOn a i l →
      (∀ k m : Nat, k < a → a ≤ m → m < b → keyAt l k ≤ keyAt l m) →
      ∃ l' r, GoSort.partialInsertionSort.loop a b n i l = some (l', r) ∧ Moves a b l l' ∧
        (r = true → SortedOn a b l') := by
  intro n
  induction n with
  | zero =>
    intro i l _ _ _ _ _
    exact ⟨l, false, rfl, Moves.refl _ _ _, fun h => by simp at h⟩
  | succ n ih =>
    intro i l hai hib hb hs hleft
    obtain ⟨i1, hsc, hi1, hi2, hadj, hstop⟩ :=
      partialInsertionSort_scan_spec l b hb (b + 1 - i) i (by omega) hib (by omega)
    have hs1 : SortedOn a i1 l := hs.extend (by omega) hadj
    unfold GoSort.partialInsertionSort.loop
    simp only []
    rw [hsc]
    simp only []
    by_cases hend : i1 = b
    · simp only [hend, if_true]
      subst hend
      exact ⟨l, true, rfl, Moves.refl _ _ _, fun _ => hs1⟩
    · simp only [hend, if_false]
      by_cases hshort : b - a < 50
      · simp only [hshort, if_true]
        exact ⟨l, false, rfl, Moves.refl _ _ _, fun h => by simp at h⟩
      · simp only [hshort, if_false]
        have hA : i1 < l.length := by omega
        have hB : i1 - 1 < l.length := by omega
        rw [Swap_eq hA hB]
        simp only []
        have hm1 : Moves a b l (swapAt l i1 (i1 - 1)) :=
          Moves.swap hb (by omega) (by omega) (by omega) (by omega)
        have k3 : ∀ k, k ≠ i1 → k ≠ i1 - 1 → keyAt (swapAt l i1 (i1 - 1)) k = keyAt l k :=
          fun k h1 h2 => keyAt_swapAt_ne hA hB h1 h2
        have hleft1 := hm1.leftLE hleft
        -- shift the smaller one to the left
        have hstep2 : ∃ l2, (if i1 - a ≥ 2 then
              GoSort.partialInsertionSort.left (i1 - 1) (swapAt l i1 (i1 - 1))
            else some (swapAt l i1 (i1 - 1))) = some l2 ∧
            Moves a b (swapAt l i1 (i1 - 1)) l2 ∧ SortedOn a i1 l2 := by
          by_cases h2 : i1 - a ≥ 2
          · rw [if_pos h2, partialInsertionSort_left_eq]
            obtain ⟨l2, e1, e2, e3⟩ := inner_spec 0 a (i1 - 1) (Nat.zero_le a) (i1 - 1)
              (swapAt l i1 (i1 - 1)) (by omega) (Nat.le_refl _)
              (by rw [length_swapAt]; omega)
              (by
                intro p q hp hpq hq
                rw [k3 p (by omega) (by omega), k3 q (by omega) (by omega)]
                exact hs1 p q hp hpq (by omega))
              (fun p q hp hpq hq => by omega)
              (fun p q hp hpj hjq hqi => by omega)
              (fun k m hk1 hk2 hm1' hm2 => hleft1 k m hk2 hm1' (by omega))
            have e : i1 - 1 + 1 = i1 := by omega
            rw [e] at e2 e3
            exact ⟨l2, e1, e2.mono (Nat.le_refl a) (by omega), e3⟩
          · rw [if_neg h2]
            exact ⟨_, rfl, Moves.refl _ _ _, fun p q hp hpq hq => by omega⟩
        obtain ⟨l2, e2, hm2, hs2⟩ := hstep2
        rw [e2]
        simp only []
        have hlen2 : l2.length = l.length := by rw [hm2.length, length_swapAt]
        -- shift the greater one to the right
        have hstep3 : ∃ l3, (if b - i1 ≥ 2 then
              GoSort.partialInsertionSort.right b (b - i1) (i1 + 1) l2
            else some l2) = some l3 ∧ Moves i1 b l2 l3 := by
          by_cases h3 : b - i1 ≥ 2
          · rw [if_pos h3]
            obtain ⟨l3, e1, e2⟩ := partialInsertionSort_right_spec b (b - i1) (i1 + 1) l2
              (by omega) (by omega) (by omega) (by omega)
            have e : i1 + 1 - 1 = i1 := by omega
            rw [e] at e2
            exact ⟨l3, e1, e2⟩
          · rw [if_neg h3]
            exact ⟨_, rfl, Moves.refl _ _ _⟩
        obtain ⟨l3, e3, hm3⟩ := hstep3
        rw [e3]
        simp only []
        have hmall : Moves a b l l3 :=
          hm1.trans (hm2.trans (hm3.mono (by omega) (Nat.le_refl b)))
        obtain ⟨l', r, h1, h2, h3⟩ := ih i1 l3 (by omega) hi2
          (by rw [hmall.length]; exact hb)
          (hm3.sortedOn_left (Nat.le_refl i1) hs2)
          (hmall.leftLE hleft)
        exact ⟨l', r, h1, hmall.trans h2, h3⟩

/-- Function `partialInsertionSort` rearranges the part `[a, b)`, and the part
is sorted when it answers `true`. -/
theorem partialInsertionSort_spec (l : RawVersions) (a b : Nat) (hab : a < b)
    (hb : b ≤ l.length)
    (hleft : ∀ k m : Nat, k < a → a ≤ m → m < b → keyAt l k ≤ keyAt l m) :
    ∃ l' r, GoSort.partialInsertionSort l a b = some (l', r) ∧ Moves a b l l' ∧
      (r = true → SortedOn a b l') := by
  unfold GoSort.partialInsertionSort
  exact partialInsertionSort_loop_spec a b 5 (a + 1) l (Nat.le_refl _) (by omega) hb
    (fun p q hp hpq hq => by omega) hleft

theorem order2_spec (l : RawVersions) (a b swaps : Nat) (ha : a < l.length)
    (hb : b < l.length) :
    ∃ x y s, GoSort.order2 l a b swaps = some (x, y, s) ∧
      ((x = a ∧ y = b) ∨ (x = b ∧ y = a)) := by
  unfold GoSort.order2
  rw [Less_eq hb ha]
  by_cases h : keyAt l b < keyAt l a
  · simp only [h, decide_True]
    exact ⟨b, a, swaps + 1, rfl, Or.inr ⟨rfl, rfl⟩⟩
  · simp only [h, decide_False]
    exact ⟨a, b, swaps, rfl, Or.inl ⟨rfl, rfl⟩⟩

theorem median_spec (l : RawVersions) (a b c swaps : Nat) (ha : a < l.length)
    (hb : b < l.length) (hc : c < l.length) :
    ∃ x s, GoSort.median l a b c swaps = some (x, s) ∧ (x = a ∨ x = b ∨ x = c) := by
  unfold GoSort.median
  obtain ⟨x1, y1, s1, e1, h1⟩ := order2_spec l a b swaps ha hb
  rw [e1]
  simp only []
  have hx1 : x1 < l.length := by rcases h1 with ⟨h, _⟩ | ⟨h, _⟩ <;> omega
  have hy1 : y1 < l.length := by rcases h1 with ⟨_, h⟩ | ⟨_, h⟩ <;> omega
  obtain ⟨x2, y2, s2, e2, h2⟩ := order2_spec l y1 c s1 hy1 hc
  rw [e2]
  simp only []
  have hx2 : x2 < l.length := by rcases h2 with ⟨h, _⟩ | ⟨h, _⟩ <;> omega
  obtain ⟨x3, y3, s3, e3, h3⟩ := order2_spec l x1 x2 s2 hx1 hx2
  rw [e3]
  simp only []
  refine ⟨y3, s3, rfl, ?_⟩
  rcases h1 with ⟨h1a, h1b⟩ | ⟨h1a, h1b⟩ <;> rcases h2 with ⟨h2a, h2b⟩ | ⟨h2a, h2b⟩ <;>
    rcases h3 with ⟨h3a, h3b⟩ | ⟨h3a, h3b⟩ <;> omega

/-- Function `choosePivot` returns an index of the part. -/
theorem choosePivot_spec (l : RawVersions) (a b : Nat) (hab : a < b) (hb : b ≤ l.length) :
    ∃ p h, GoSort.choosePivot l a b = some (p, h) ∧ a ≤ p ∧ p < b := by
  unfold GoSort.choosePivot
  simp only []
  have hfin : ∀ (j swaps : Nat), a ≤ j → j < b →
      ∃ p h, (if swaps = 0 then some (j, GoSort.sortedHint.increasingHint)
        else if swaps = 4 * 3 then some (j, GoSort.sortedHint.decreasingHint)
        else some (j, GoSort.sortedHint.unknownHint)) = some (p, h) ∧ a ≤ p ∧ p < b := by
    intro j swaps hj1 hj2
    by_cases h0 : swaps = 0
    · rw [if_pos h0]; exact ⟨j, _, rfl, hj1, hj2⟩
    · rw [if_neg h0]
      by_cases h1 : swaps = 4 * 3
      · rw [if_pos h1]; exact ⟨j, _, rfl, hj1, hj2⟩
      · rw [if_neg h1]; exact ⟨j, _, rfl, hj1, hj2⟩
  by_cases h8 : b - a ≥ 8
  · simp only [h8, if_true]
    by_cases h50 : b - a ≥ 50
    · simp only [h50, if_true]
      unfold GoSort.medianAdjacent
      obtain ⟨i1, s1, e1, hi1⟩ := median_spec l (a + (b - a) / 4 * 1 - 1) (a + (b - a) / 4 * 1)
        (a + (b - a) / 4 * 1 + 1) 0 (by omega) (by omega) (by omega)
      rw [e1]
      simp only []
      obtain ⟨j1, s2, e2, hj1⟩ := median_spec l (a + (b - a) / 4 * 2 - 1) (a + (b - a) / 4 * 2)
        (a + (b - a) / 4 * 2 + 1) s1 (by omega) (by omega) (by omega)
      rw [e2]
      simp only []
      obtain ⟨k1, s3, e3, hk1⟩ := median_spec l (a + (b - a) / 4 * 3 - 1) (a + (b - a) / 4 * 3)
        (a + (b - a) / 4 * 3 + 1) s2 (by omega) (by omega) (by omega)
      rw [e3]
      simp only []
      obtain ⟨m, s4, e4, hm⟩ := median_spec l i1 j1 k1 s3 (by omega) (by omega) (by omega)
      rw [e4]
      simp only []
      exact hfin m s4 (by omega) (by omega)
    · simp only [h50, if_false]
      obtain ⟨m, s4, e4, hm⟩ := median_spec l (a + (b - a) / 4 * 1) (a + (b - a) / 4 * 2)
        (a + (b - a) / 4 * 3) 0 (by omega) (by omega) (by omega)
      rw [e4]
      simp only []
      exact hfin m s4 (by omega) (by omega)
  · simp only [h8, if_false]
    exact hfin _ 0 (by omega) (by omega)

theorem reverseRange_loop_spec (a b : Nat) :
    ∀ (fuel i j : Nat) (l : RawVersions), a ≤ i → i ≤ j + 1 → j < b → b ≤ l.length →
      j + 2 ≤ fuel + i →
      ∃ l', GoSort.reverseRange.loop fuel i j l = some l' ∧ Moves a b l l' := by
  intro fuel
  induction fuel with
  | zero => intro i j l _ h1 _ _ h2; exfalso; omega
  | succ fuel ih =>
    intro i j l hai hij hjb hb hfuel
    unfold GoSort.reverseRange.loop
    by_cases h : i < j
    · simp only [h, if_true]
      rw [Swap_eq (by omega) (by omega)]
      simp only [Option.bind_eq_bind, Option.some_bind]
      have hm : Moves a b l (swapAt l i j) :=
        Moves.swap hb hai (by omega) (by omega) hjb
      obtain ⟨l', h1, h2⟩ := ih (i + 1) (j - 1) (swapAt l i j) (by omega) (by omega)
        (by omega) (by rw [length_swapAt]; exact hb) (by omega)
      exact ⟨l', h1, hm.trans h2⟩
    · simp only [h, if_false]
      exact ⟨l, rfl, Moves.refl _ _ _⟩

/-- Function `reverseRange` rearranges the part `[a, b)`. -/
theorem reverseRange_spec (l : RawVersions) (a b : Nat) (hab : a < b) (hb : b ≤ l.length) :
    ∃ l', GoSort.reverseRange l a b = some l' ∧ Moves a b l l' := by
  unfold GoSort.reverseRange
  exact reverseRange_loop_spec a b (b - a + 1) a (b - 1) l (Nat.le_refl a) (by omega)
    (by omega) hb (by omega)

theorem nextPowerOfTwo_le (length : Nat) (h : length ≠ 0) :
    GoSort.nextPowerOfTwo length ≤ 2 * length := by
  unfold GoSort.nextPowerOfTwo GoSort.bitsLen
  simp only [h, if_false]
  have := Nat.log2_self_le h
  rw [Nat.pow_succ]
  omega

theorem breakPatterns_loop_spec (next : Nat → Nat) (a b modulus idx : Nat) (hlen8 : b - a ≥ 8)
    (hidx1 : a + 1 ≤ idx) (hidx2 : idx + 1 < b) (hmod : modulus ≤ 2 * (b - a))
    (hmod1 : 1 ≤ modulus) :
    ∀ (n i random : Nat) (l : RawVersions), i + n ≤ 3 → b ≤ l.length →
      ∃ l', GoSort.breakPatterns.loop next a (b - a) modulus idx n i random l = some l' ∧
        Moves a b l l' := by
  intro n
  induction n with
  | zero => intro i random l _ _; exact ⟨l, rfl, Moves.refl _ _ _⟩
  | succ n ih =>
    intro i random l hin hb
    unfold GoSort.breakPatterns.loop
    simp only []
    have hand : next random &&& (modulus - 1) ≤ modulus - 1 := Nat.and_le_right
    have hother : (if next random &&& (modulus - 1) ≥ b - a then
        (next random &&& (modulus - 1)) - (b - a)
        else next random &&& (modulus - 1)) < b - a := by
      split <;> omega
    generalize (if next random &&& (modulus - 1) ≥ b - a then
        (next random &&& (modulus - 1)) - (b - a)
        else next random &&& (modulus - 1)) = other at hother
    rw [Swap_eq (by omega) (by omega)]
    simp only [Option.bind_eq_bind, Option.some_bind]
    have hm : Moves a b l (swapAt l (idx - 1 + i) (a + other)) :=
      Moves.swap hb (by omega) (by omega) (by omega) (by omega)
    obtain ⟨l', h1, h2⟩ := ih (i + 1) (next random)
      (swapAt l (idx - 1 + i) (a + other)) (by omega) (by rw [length_swapAt]; exact hb)
    exact ⟨l', h1, hm.trans h2⟩

/-- Function `breakPatterns` rearranges the part `[a, b)`. -/
theorem breakPatterns_spec (next : Nat → Nat) (l : RawVersions) (a b : Nat) (hab : a ≤ b)
    (hb : b ≤ l.length) :
    ∃ l', GoSort.breakPatterns next l a b = some l' ∧ Moves a b l l' := by
  unfold GoSort.breakPatterns
  simp only []
  by_cases h8 : b - a ≥ 8
  · simp only [h8, if_true]
    have hne : b - a ≠ 0 := by omega
    have hmod := nextPowerOfTwo_le (b - a) hne
    have hmod1 : 1 ≤ GoSort.nextPowerOfTwo (b - a) := by
      unfold GoSort.nextPowerOfTwo
      exact Nat.one_le_two_pow
    exact breakPatterns_loop_spec next a b (GoSort.nextPowerOfTwo (b - a))
      (a + (b - a) / 4 * 2 - 1) h8 (by omega) (by omega) hmod hmod1 3 0 (b - a) l
      (by omega) hb
  · simp only [h8, if_false]
    exact ⟨l, rfl, Moves.refl _ _ _⟩

/-! ## The main loop -/

theorem SplitAt.moves_left {a mid b : Nat} {l l' : RawVersions} (h : SplitAt a mid b l)
    (hm : Moves a mid l l') : SplitAt a mid b l' := by
  constructor
  · intro k hk1 hk2
    rw [hm.outside mid (by omega)]
    exact hm.inside (fun x => x < keyAt l mid) (fun k hk1 hk2 => h.1 k hk1 hk2) k hk1 hk2
  · intro k hk1 hk2
    rw [hm.outside mid (by omega), hm.outside k (by omega)]
    exact h.2 k hk1 hk2

theorem SplitAt.moves_right {a mid b : Nat} {l l' : RawVersions} (h : SplitAt a mid b l)
    (hm : Moves (mid + 1) b l l') : SplitAt a mid b l' := by
  constructor
  · intro k hk1 hk2
    rw [hm.outside mid (by omega), hm.outside k (by omega)]
    exact h.1 k hk1 hk2
  · intro k hk1 hk2
    rw [hm.outside mid (by omega)]
    exact hm.inside (fun x => keyAt l mid ≤ x) (fun k hk1 hk2 => h.2 k (by omega) hk2) k
      (by omega) hk2

theorem SplitAt.sortedOn {a mid b : Nat} {l : RawVersions} (h : SplitAt a mid b l)
    (h1 : SortedOn a mid l) (h2 : SortedOn (mid + 1) b l) : SortedOn a b l := by
  intro i j hi hij hj
  by_cases hjm : j < mid
  · exact h1 i j hi hij hjm
  · by_cases him : mid < i
    · exact h2 i j (by omega) hij hj
    · by_cases hi' : i = mid
      · subst hi'
        exact h.2 j (by omega) hj
      · have e1 := h.1 i hi (by omega)
        by_cases hj' : j = mid
        · subst hj'; omega
        · have e2 := h.2 j (by omega) hj
          omega

theorem SplitAt.leftLE_right {a mid b : Nat} {l : RawVersions} (h : SplitAt a mid b l)
    (ham : a ≤ mid) (hmb : mid < b) (hle : LeftLE a b l) : LeftLE (mid + 1) b l := by
  intro k m hk hm1 hm2
  have e2 := h.2 m (by omega) hm2
  by_cases hka : k < a
  · exact hle k m hka (by omega) hm2
  · by_cases hkm : k = mid
    · subst hkm; exact e2
    · have e1 := h.1 k (by omega) (by omega)
      omega

theorem LeftLE.restrict {a b b' : Nat} {l : RawVersions} (hle : LeftLE a b l) (hb : b' ≤ b) :
    LeftLE a b' l :=
  fun k m hk hm1 hm2 => hle k m hk hm1 (by omega)

theorem LeftLE.moves {a b : Nat} {l l' : RawVersions} (hle : LeftLE a b l)
    (hm : Moves a b l l') : LeftLE a b l' :=
  hm.leftLE hle

/-- Function `pdqsort`, in its loop form, sorts the part `[a, b)` in place,
provided nothing before the part is above anything in it; it neither panics
nor exhausts a counter larger than the part. -/
theorem pdqsort_go_spec (next : Nat → Nat) :
    ∀ (fuel : Nat) (l : RawVersions) (a b limit : Nat) (wb wp : Bool), a ≤ b →
      b ≤ l.length → b - a < fuel → LeftLE a b l →
      ∃ l', GoSort.pdqsort.go next fuel l a b limit wb wp = some l' ∧ Moves a b l l' ∧
        SortedOn a b l' := by
  intro fuel
  induction fuel with
  | zero => intro l a b limit wb wp _ _ h _; exfalso; omega
  | succ fuel ih =>
    intro l a b limit wb wp hab hb hfuel hle
    unfold GoSort.pdqsort.go
    simp only []
    by_cases h12 : b - a ≤ 12
    · simp only [h12, if_true]
      exact insertionSort_spec l a b hb
    · simp only [h12, if_false]
      by_cases hlim : limit = 0
      · simp only [hlim, if_true]
        exact heapSort_spec l a b hab hb
      · simp only [hlim, if_false]
        -- breakPatterns
        have hA : ∃ l1 lim1, (if (!wb) = true then
              Option.map (fun d => (d, limit - 1)) (GoSort.breakPatterns next l a b)
            else some (l, limit)) = some (l1, lim1) ∧ Moves a b l l1 := by
          by_cases hwb : (!wb) = true
          · rw [if_pos hwb]
            obtain ⟨l1, e1, m1⟩ := breakPatterns_spec next l a b hab hb
            rw [e1]
            exact ⟨l1, limit - 1, rfl, m1⟩
          · rw [if_neg hwb]
            exact ⟨l, limit, rfl, Moves.refl _ _ _⟩
        obtain ⟨l1, lim1, eA, mA⟩ := hA
        rw [eA]
        simp only []
        have hb1 : b ≤ l1.length := by rw [mA.length]; exact hb
        -- choosePivot
        obtain ⟨pivot, hint, eB, hp1, hp2⟩ := choosePivot_spec l1 a b (by omega) hb1
        rw [eB]
        simp only []
        -- reverseRange
        have hC : ∃ l2 pivot2 hint2, (if hint = GoSort.sortedHint.decreasingHint then
              Option.map (fun d => (d, b - 1 - (pivot - a), GoSort.sortedHint.increasingHint))
                (GoSort.reverseRange l1 a b)
            else some (l1, pivot, hint)) = some (l2, pivot2, hint2) ∧ Moves a b l1 l2 ∧
            a ≤ pivot2 ∧ pivot2 < b := by
          by_cases hdec : hint = GoSort.sortedHint.decreasingHint
          · rw [if_pos hdec]
            obtain ⟨l2, e2, m2⟩ := reverseRange_spec l1 a b (by omega) hb1
            rw [e2]
            exact ⟨l2, _, _, rfl, m2, by omega, by omega⟩
          · rw [if_neg hdec]
            exact ⟨l1, pivot, hint, rfl, Moves.refl _ _ _, hp1, hp2⟩
        obtain ⟨l2, pivot2, hint2, eC, mC, hq1, hq2⟩ := hC
        rw [eC]
        simp only []
        have hb2 : b ≤ l2.length := by rw [mC.length]; exact hb1
        have hle2 : LeftLE a b l2 := (hle.moves mA).moves mC
        -- partialInsertionSort
        have hD : ∃ l3 r, (if (wb && wp && decide (hint2 = GoSort.sortedHint.increasingHint))
              = true then GoSort.partialInsertionSort l2 a b
            else some (l2, false)) = some (l3, r) ∧ Moves a b l2 l3 ∧
            (r = true → SortedOn a b l3) := by
          by_cases hcond : (wb && wp && decide (hint2 = GoSort.sortedHint.increasingHint)) = true
          · rw [if_pos hcond]
            exact partialInsertionSort_spec l2 a b (by omega) hb2 hle2
          · rw [if_neg hcond]
            exact ⟨l2, false, rfl, Moves.refl _ _ _, fun h => by simp at h⟩
        obtain ⟨l3, r, eD, mD, sD⟩ := hD
        rw [eD]
        have hb3 : b ≤ l3.length := by rw [mD.length]; exact hb2
        have hle3 : LeftLE a b l3 := hle2.moves mD
        have m03 : Moves a b l l3 := mA.trans (mC.trans mD)
        cases r with
        | true =>
          simp only []
          exact ⟨l3, rfl, m03, sD rfl⟩
        | false =>
          simp only []
          -- the test `a > 0 && !data.Less(a-1, pivot)`
          have hE : ∃ c : Bool, (if a > 0 then
                Option.map (fun lt => !lt) (l3.Less (a - 1) pivot2)
              else some false) = some c ∧
              (c = true → a > 0 ∧ keyAt l3 pivot2 ≤ keyAt l3 (a - 1)) := by
            by_cases ha0 : a > 0
            · rw [if_pos ha0, Less_eq (by omega) (by omega)]
              refine ⟨_, rfl, ?_⟩
              intro hc
              simp at hc
              exact ⟨ha0, hc⟩
            · rw [if_neg ha0]
              exact ⟨false, rfl, fun h => by simp at h⟩
          obtain ⟨c, eE, hc⟩ := hE
          rw [eE]
          cases c with
          | true =>
            simp only []
            obtain ⟨ha0, hpv⟩ := hc rfl
            obtain ⟨l4, mid, eF, mF, hm1, hm2, heq, hgt⟩ := partitionEqual_spec l3 a b pivot2
              hq1 hq2 hb3
              (fun k hk1 hk2 => by
                have := hle3 (a - 1) k (by omega) hk1 hk2
                omega)
            rw [eF]
            simp only []
            have hb4 : b ≤ l4.length := by rw [mF.length]; exact hb3
            have hle4 : LeftLE a b l4 := hle3.moves mF
            obtain ⟨l5, eG, mG, sG⟩ := ih l4 mid b lim1 wb wp hm2 hb4 (by omega)
              (by
                intro k m hk hm1' hm2'
                by_cases hka : k < a
                · exact hle4 k m hka (by omega) hm2'
                · have e1 := heq k (by omega) hk
                  have e2 := hgt m hm1' hm2'
                  omega)
            refine ⟨l5, eG, m03.trans (mF.trans (mG.mono (by omega) (Nat.le_refl b))), ?_⟩
            intro i j hi hij hj
            by_cases him : mid ≤ i
            · exact sG i j him hij hj
            · have ei : keyAt l5 i = keyAt l3 pivot2 := by
                rw [mG.outside i (by omega)]
                exact heq i hi (by omega)
              by_cases hjm : j < mid
              · have ej : keyAt l5 j = keyAt l3 pivot2 := by
                  rw [mG.outside j (by omega)]
                  exact heq j (by omega) hjm
                omega
              · have ej := mG.inside (fun x => keyAt l3 pivot2 < x) hgt j (by omega) hj
                omega
          | false =>
            simp only []
            obtain ⟨l4, mid, ap, eF, mF, hm1, hm2, hlo, hhi⟩ := partition_spec l3 a b pivot2
              hq1 hq2 hb3
            rw [eF]
            simp only []
            have hb4 : b ≤ l4.length := by rw [mF.length]; exact hb3
            have hle4 : LeftLE a b l4 := hle3.moves mF
            have hsp : SplitAt a mid b l4 := ⟨hlo, hhi⟩
            have m04 : Moves a b l l4 := m03.trans mF
            by_cases hside : mid - a < b - mid
            · simp only [hside, if_true]
              obtain ⟨l5, eG, mG, sG⟩ := ih l4 a mid lim1 true true hm1 (by omega) (by omega)
                (hle4.restrict (by omega))
              rw [eG]
              simp only [Option.bind_eq_bind, Option.some_bind]
              have hb5 : b ≤ l5.length := by rw [mG.length]; exact hb4
              have hsp5 := hsp.moves_left mG
              have hle5 : LeftLE a b l5 := hle4.moves (mG.mono (Nat.le_refl a) (by omega))
              obtain ⟨l6, eH, mH, sH⟩ := ih l5 (mid + 1) b lim1
                (decide (mid - a ≥ (b - a) / 8)) ap (by omega) hb5 (by omega)
                (hsp5.leftLE_right hm1 hm2 hle5)
              refine ⟨l6, eH, m04.trans ((mG.mono (Nat.le_refl a) (by omega)).trans
                (mH.mono (by omega) (Nat.le_refl b))), ?_⟩
              exact (hsp5.moves_right mH).sortedOn (mH.sortedOn_left (by omega) sG) sH
            · simp only [hside, if_false]
              obtain ⟨l5, eG, mG, sG⟩ := ih l4 (mid + 1) b lim1 true true (by omega) hb4
                (by omega) (hsp.leftLE_right hm1 hm2 hle4)
              rw [eG]
              simp only [Option.bind_eq_bind, Option.some_bind]
              have hb5 : b ≤ l5.length := by rw [mG.length]; exact hb4
              have hsp5 := hsp.moves_right mG
              have hle5 : LeftLE a b l5 := hle4.moves (mG.mono (by omega) (Nat.le_refl b))
              obtain ⟨l6, eH, mH, sH⟩ := ih l5 a mid lim1
                (decide (b - mid ≥ (b - a) / 8)) ap hm1 (by omega) (by omega)
                (hle5.restrict (by omega))
              refine ⟨l6, eH, m04.trans ((mG.mono (by omega) (Nat.le_refl b)).trans
                (mH.mono (Nat.le_refl a) (by omega))), ?_⟩
              exact (hsp5.moves_left mH).sortedOn sH (mH.sortedOn_right (by omega) sG)

/-- Function `sort.Sort`, run on any slice through `Len`, `Less` and `Swap`,
returns (no panic, no exhausted counter) a rearrangement of the slice in
ascending order of creation timestamp. -/
theorem sortSort_spec (next : Nat → Nat) (data : RawVersions) :
    ∃ sorted, GoSort.sortSort next data = some sorted ∧ sorted.Perm data ∧
      sorted.length = data.length ∧ SortedOn 0 data.length sorted := by
  unfold GoSort.sortSort
  simp only []
  by_cases h1 : data.Len ≤ 1
  · simp only [h1, if_true]
    refine ⟨data, rfl, List.Perm.refl _, rfl, ?_⟩
    intro i j hi hij hj
    have : data.length ≤ 1 := h1
    omega
  · simp only [h1, if_false]
    unfold GoSort.pdqsort
    obtain ⟨l', e, m, s⟩ := pdqsort_go_spec next (data.Len - 0 + 1) data 0 data.Len
      (GoSort.bitsLen data.Len) true true (Nat.zero_le _) (Nat.le_refl _)
      (by omega) (fun k m hk => by omega)
    exact ⟨l', e, m.perm, m.length, s⟩

/-! ## Stability of the insertion sort -/

theorem KeepsOrder.same (l : RawVersions) : KeepsOrder l l := fun _ _ _ h => h

theorem KeepsOrder.andThen {l1 l2 l3 : RawVersions} (h12 : KeepsOrder l1 l2)
    (h23 : KeepsOrder l2 l3) : KeepsOrder l1 l3 :=
  fun a b hab h => h23 a b hab (h12 a b hab h)

/-- Exchanging two neighbours of which the second has the smaller timestamp keeps
the order of all pairs in ascending order. -/
theorem keepsOrder_exchange (pre suf : RawVersions) (x y : RawVersion)
    (hxy : x.CreatedAt < y.CreatedAt) :
    KeepsOrder (pre ++ y :: x :: suf) (pre ++ x :: y :: suf) := by
  intro a b hab h
  rw [List.sublist_append_iff] at h
  obtain ⟨s1, s2, hs, h1, h2⟩ := h
  rw [List.sublist_append_iff]
  match s1, hs with
  | [], hs =>
    simp only [List.nil_append] at hs
    subst hs
    refine ⟨[], [a, b], rfl, h1, ?_⟩
    -- `[a, b]` inside `y :: x :: suf`
    rw [List.sublist_cons_iff] at h2
    rcases h2 with h2 | ⟨r, hr, h2⟩
    · -- `y` is skipped
      rw [List.sublist_cons_iff] at h2
      rcases h2 with h2 | ⟨r, hr, h2⟩
      · exact (h2.cons y).cons x
      · simp only [List.cons.injEq] at hr
        obtain ⟨rfl, rfl⟩ := hr
        exact List.Sublist.cons₂ _ (h2.cons y)
    · simp only [List.cons.injEq] at hr
      obtain ⟨rfl, rfl⟩ := hr
      -- `a = y`, and `[b]` inside `x :: suf`
      rw [List.sublist_cons_iff] at h2
      rcases h2 with h2 | ⟨r, hr, h2⟩
      · exact List.Sublist.cons x (List.Sublist.cons₂ _ h2)
      · simp only [List.cons.injEq] at hr
        obtain ⟨rfl, rfl⟩ := hr
        omega
  | [c], hs =>
    simp only [List.singleton_append, List.cons.injEq] at hs
    obtain ⟨rfl, rfl⟩ := hs
    refine ⟨[a], [b], rfl, h1, ?_⟩
    have hb : b ∈ y :: x :: suf := by
      have := h2.subset (List.mem_singleton_self b)
      exact this
    have hb' : b ∈ x :: y :: suf := by
      simp only [List.mem_cons] at hb ⊢
      tauto
    exact List.singleton_sublist.mpr hb'
  | [c, d], hs =>
    simp only [List.cons_append, List.nil_append, List.cons.injEq] at hs
    obtain ⟨rfl, rfl, rfl⟩ := hs
    exact ⟨[a, b], [], by simp, h1, List.nil_sublist _⟩
  | c :: d :: e :: t, hs =>
    simp at hs

/-- The slice around two neighbouring positions, and what exchanging them
gives. -/
theorem swapAt_adjacent :
    ∀ (j : Nat) (l : RawVersions), j + 1 < l.length →
      ∃ (pre suf : RawVersions) (x y : RawVersion),
        l = pre ++ y :: x :: suf ∧ swapAt l (j + 1) j = pre ++ x :: y :: suf ∧
        keyAt l j = y.CreatedAt ∧ keyAt l (j + 1) = x.CreatedAt := by
  intro j
  induction j with
  | zero =>
    intro l hl
    match l, hl with
    | y :: x :: suf, _ =>
      exact ⟨[], suf, x, y, rfl, by simp [swapAt], by simp [keyAt], by simp [keyAt]⟩
  | succ j ih =>
    intro l hl
    match l, hl with
    | z :: t, hl =>
      have ht : j + 1 < t.length := by simpa using hl
      obtain ⟨pre, suf, x, y, e1, e2, e3, e4⟩ := ih t ht
      refine ⟨z :: pre, suf, x, y, by rw [e1]; rfl, ?_, ?_, ?_⟩
      · have hj1 : j + 1 < t.length := ht
        have hj0 : j < t.length := by omega
        have : swapAt (z :: t) (j + 1 + 1) (j + 1) = z :: swapAt t (j + 1) j := by
          simp [swapAt, List.getElem?_eq_getElem hj1, List.getElem?_eq_getElem hj0]
        rw [this, e2]
        rfl
      · rw [← e3]; simp [keyAt]
      · rw [← e4]; simp [keyAt]

theorem keepsOrder_swap_adjacent (j : Nat) (l : RawVersions) (hj : j + 1 < l.length)
    (hlt : keyAt l (j + 1) < keyAt l j) : KeepsOrder l (swapAt l (j + 1) j) := by
  obtain ⟨pre, suf, x, y, e1, e2, e3, e4⟩ := swapAt_adjacent j l hj
  rw [e2]
  rw [e3, e4] at hlt
  have := keepsOrder_exchange pre suf x y hlt
  rw [← e1] at this
  exact this

theorem inner_keepsOrder (c : Nat) :
    ∀ (j : Nat) (l l' : RawVersions), j < l.length →
      GoSort.insertionSort.inner c j l = some l' → KeepsOrder l l' := by
  intro j
  induction j with
  | zero =>
    intro l l' _ h
    simp only [GoSort.insertionSort.inner, Option.some.injEq] at h
    subst h
    exact KeepsOrder.same l
  | succ j ih =>
    intro l l' hj h
    have hj0 : j < l.length := by omega
    unfold GoSort.insertionSort.inner at h
    by_cases hc : j + 1 > c
    · simp only [hc, if_true, Less_eq hj hj0] at h
      by_cases hlt : keyAt l (j + 1) < keyAt l j
      · simp only [hlt, decide_True, Swap_eq hj hj0, Option.bind_eq_bind,
          Option.some_bind] at h
        exact (keepsOrder_swap_adjacent j l hj hlt).andThen
          (ih (swapAt l (j + 1) j) l' (by rw [length_swapAt]; exact hj0) h)
      · simp only [hlt, decide_False, Option.some.injEq] at h
        subst h
        exact KeepsOrder.same l
    · simp only [hc, if_false, Option.some.injEq] at h
      subst h
      exact KeepsOrder.same l

theorem inner_length (c : Nat) :
    ∀ (j : Nat) (l l' : RawVersions), j < l.length →
      GoSort.insertionSort.inner c j l = some l' → l'.length = l.length := by
  intro j
  induction j with
  | zero =>
    intro l l' _ h
    simp only [GoSort.insertionSort.inner, Option.some.injEq] at h
    subst h
    rfl
  | succ j ih =>
    intro l l' hj h
    have hj0 : j < l.length := by omega
    unfold GoSort.insertionSort.inner at h
    by_cases hc : j + 1 > c
    · simp only [hc, if_true, Less_eq hj hj0] at h
      by_cases hlt : keyAt l (j + 1) < keyAt l j
      · simp only [hlt, decide_True, Swap_eq hj hj0, Option.bind_eq_bind,
          Option.some_bind] at h
        rw [ih (swapAt l (j + 1) j) l' (by rw [length_swapAt]; exact hj0) h, length_swapAt]
      · simp only [hlt, decide_False, Option.some.injEq] at h
        subst h
        rfl
    · simp only [hc, if_false, Option.some.injEq] at h
      subst h
      rfl

theorem insertionSort_loop_keepsOrder (a : Nat) :
    ∀ (n i : Nat) (l l' : RawVersions), i + n ≤ l.length →
      GoSort.insertionSort.loop a n i l = some l' → KeepsOrder l l' := by
  intro n
  induction n with
  | zero =>
    intro i l l' _ h
    simp only [GoSort.insertionSort.loop, Option.some.injEq] at h
    subst h
    exact KeepsOrder.same l
  | succ n ih =>
    intro i l l' hlen h
    unfold GoSort.insertionSort.loop at h
    cases h1 : GoSort.insertionSort.inner a i l with
    | none => rw [h1] at h; simp at h
    | some l1 =>
      rw [h1] at h
      simp only [Option.bind_eq_bind, Option.some_bind] at h
      have hl1 := inner_length a i l l1 (by omega) h1
      exact (inner_keepsOrder a i l l1 (by omega) h1).andThen
        (ih (i + 1) l1 l' (by rw [hl1]; omega) h)

/-- On a slice of at most twelve records `sort.Sort` is the insertion sort, and
keeps the order of all pairs in ascending order: it is stable there. -/
theorem sortSort_keepsOrder_of_short (next : Nat → Nat) (data sorted : RawVersions)
    (hlen : data.length ≤ 12) (h : GoSort.sortSort next data = some sorted) :
    KeepsOrder data sorted := by
  unfold GoSort.sortSort at h
  simp only [] at h
  by_cases h1 : data.Len ≤ 1
  · simp only [h1, if_true, Option.some.injEq] at h
    subst h
    exact KeepsOrder.same data
  · simp only [h1, if_false] at h
    unfold GoSort.pdqsort at h
    have e : data.Len - 0 + 1 = data.Len + 1 := by omega
    rw [e] at h
    unfold GoSort.pdqsort.go at h
    have h12 : data.Len - 0 ≤ 12 := by
      have : data.Len = data.length := rfl
      omega
    simp only [h12, if_true] at h
    unfold GoSort.insertionSort at h
    have hL : data.Len = data.length := rfl
    exact insertionSort_loop_keepsOrder 0 (data.Len - (0 + 1)) (0 + 1) data sorted
      (by omega) h

/-! ## The library sort meets its contract -/

theorem librarySort_eq (next : Nat → Nat) (data : RawVersions) :
    GoSort.sortSort next data = some (librarySort next data) := by
  obtain ⟨sorted, e, _, _, _⟩ := sortSort_spec next data
  simp [librarySort, e]

/-- The sort of the Go library, run on the slice through `Len`, `Less` and
`Swap`, does what its documentation promises. -/
theorem SortContract_librarySort (next : Nat → Nat) : SortContract (librarySort next) := by
  intro data
  obtain ⟨sorted, e, hp, hl, hs⟩ := sortSort_spec next data
  have heq : librarySort next data = sorted := by simp [librarySort, e]
  rw [heq]
  refine ⟨hp, ?_⟩
  intro i j hij hj
  have hj' : j < sorted.length := hj
  rw [Less_eq hj' (by omega)]
  have := hs i j (Nat.zero_le i) hij (by omega)
  simp only [Option.some.injEq, decide_eq_false_iff_not]
  omega

/-- On at most twelve records the library sort keeps the input order of
records with equal timestamps. -/
theorem librarySort_keepsOrder_of_short (next : Nat → Nat) (data : RawVersions)
    (hlen : data.length ≤ 12) : KeepsOrder data (librarySort next data) :=
  sortSort_keepsOrder_of_short next data _ hlen (librarySort_eq next data)

/-! ## Arithmetic of the timestamp conversion -/

theorem wrapInt64_eq_self {x : Int} (h : IsInt64 x) : wrapInt64 x = x := by
  obtain ⟨h1, h2⟩ := h
  unfold wrapInt64
  norm_num at h1 h2 ⊢
  omega

theorem tdiv_tmod_thousand (a : Int) :
    1000 * Int.tdiv a 1000 + Int.tmod a 1000 = a ∧
    (0 ≤ a → 0 ≤ Int.tmod a 1000 ∧ Int.tmod a 1000 < 1000) ∧
    (a ≤ 0 → -1000 < Int.tmod a 1000 ∧ Int.tmod a 1000 ≤ 0) := by
  refine ⟨Int.tdiv_add_tmod a 1000, ?_, ?_⟩
  · intro h
    exact ⟨Int.tmod_nonneg 1000 h, Int.tmod_lt_of_pos a (by decide)⟩
  · intro h
    have hd : Int.tdiv a 1000 = -((-a) / 1000) := by
      have h1 : Int.tdiv (-(-a)) 1000 = -(Int.tdiv (-a) 1000) := Int.neg_tdiv (-a) 1000
      rw [neg_neg] at h1
      rw [h1, Int.tdiv_eq_ediv (by omega) (by decide)]
    have hm := Int.tmod_def a 1000
    rw [hd] at hm
    omega

/-- **C10.** For every `int64` creation timestamp `ms`, `Version()` hands
`time.Unix` the seconds `ms / 1000` and the nanoseconds `ms % 1000 * 1000 * 1000`
(truncating division), no step of that computation overflows, the nanoseconds
are below `10^9` in absolute value, `sec * 10^9 + nsec = ms * 10^6`, so the time
is exactly `ms` milliseconds after the epoch; the identifier is copied and the
label is "active" for an active record and "inactive" otherwise. -/
theorem Version_time_exact (self : RawVersion) (h : IsInt64 self.CreatedAt) :
    (self.Version).CreatedAt.sec = Int.tdiv self.CreatedAt 1000 ∧
    int64Mod self.CreatedAt 1000 = Int.tmod self.CreatedAt 1000 ∧
    int64Mul (int64Mod self.CreatedAt 1000) 1000 = Int.tmod self.CreatedAt 1000 * 1000 ∧
    (self.Version).CreatedAt.nsec = Int.tmod self.CreatedAt 1000 * 1000 * 1000 ∧
    |(self.Version).CreatedAt.nsec| < 10 ^ 9 ∧
    (self.Version).CreatedAt.sec * 10 ^ 9 + (self.Version).CreatedAt.nsec
      = self.CreatedAt * 10 ^ 6 ∧
    (self.Version).CreatedAt.unixNano = self.CreatedAt * 10 ^ 6 ∧
    (self.Version).VersionId = self.VersionId ∧
    (self.Version).Active = (if self.Active then "active" else "inactive") := by
  obtain ⟨hlo, hhi⟩ := h
  norm_num at hlo hhi
  obtain ⟨hsum, hpos, hneg⟩ := tdiv_tmod_thousand self.CreatedAt
  have hm : -1000 < Int.tmod self.CreatedAt 1000 ∧ Int.tmod self.CreatedAt 1000 < 1000 := by
    rcases le_total 0 self.CreatedAt with h0 | h0
    · have := hpos h0; omega
    · have := hneg h0; omega
  have hq : IsInt64 (Int.tdiv self.CreatedAt 1000) := by
    unfold IsInt64; norm_num; omega
  have e1 : int64Div self.CreatedAt 1000 = Int.tdiv self.CreatedAt 1000 :=
    wrapInt64_eq_self hq
  have e2 : int64Mod self.CreatedAt 1000 = Int.tmod self.CreatedAt 1000 :=
    wrapInt64_eq_self (by unfold IsInt64; norm_num; omega)
  have e3 : int64Mul (int64Mod self.CreatedAt 1000) 1000 = Int.tmod self.CreatedAt 1000 * 1000 := by
    rw [e2]; exact wrapInt64_eq_self (by unfold IsInt64; norm_num; omega)
  have e4 : int64Mul (int64Mul (int64Mod self.CreatedAt 1000) 1000) 1000
      = Int.tmod self.CreatedAt 1000 * 1000 * 1000 := by
    rw [e3]; exact wrapInt64_eq_self (by unfold IsInt64; norm_num; omega)
  have hsec : (self.Version).CreatedAt.sec = Int.tdiv self.CreatedAt 1000 := e1
  have hnsec : (self.Version).CreatedAt.nsec = Int.tmod self.CreatedAt 1000 * 1000 * 1000 := e4
  refine ⟨hsec, e2, e3, hnsec, ?_, ?_, ?_, rfl, rfl⟩
  · rw [hnsec, abs_lt]; norm_num; omega
  · rw [hsec, hnsec]; norm_num; omega
  · unfold Time.unixNano; rw [hsec, hnsec]; norm_num; omega

/-- Example for C10: a record created 1501 ms before the epoch. -/
theorem Version_time_exact_witness :
    IsInt64 (-1501) ∧
    ((⟨"v1", -1501, 0, true⟩ : RawVersion).Version).CreatedAt = Time.Unix (-1) (-501000000) ∧
    ((⟨"v1", -1501, 0, true⟩ : RawVersion).Version).CreatedAt.unixNano = -1501 * 10 ^ 6 :=
  have h : IsInt64 (⟨"v1", -1501, 0, true⟩ : RawVersion).CreatedAt := by
    unfold IsInt64; decide
  ⟨h, by decide, (Version_time_exact ⟨"v1", -1501, 0, true⟩ h).2.2.2.2.2.2.1⟩

/-! ## Sorted arrangements -/

theorem map_createdAt_sorted {l : RawVersions} (h : l.Pairwise createdLE) :
    (l.map RawVersion.CreatedAt).Sorted (fun a b : Int => a ≤ b) := by
  unfold List.Sorted
  rw [List.pairwise_map]
  exact h

theorem eq_of_map_eq_of_injOn {α β : Type} (f : α → β) :
    ∀ (l1 l2 : List α), l1.map f = l2.map f →
      (∀ x ∈ l1, ∀ y ∈ l2, f x = f y → x = y) → l1 = l2
  | [], [], _, _ => rfl
  | [], _ :: _, h, _ => by simp at h
  | _ :: _, [], h, _ => by simp at h
  | a :: l1, b :: l2, h, hinj => by
    simp only [List.map_cons, List.cons.injEq] at h
    have hab : a = b := hinj a (List.mem_cons_self a l1) b (List.mem_cons_self b l2) h.1
    have ht : l1 = l2 := eq_of_map_eq_of_injOn f l1 l2 h.2 (fun x hx y hy hxy =>
      hinj x (List.mem_cons_of_mem a hx) y (List.mem_cons_of_mem b hy) hxy)
    rw [hab, ht]

/-- Two ascending arrangements of the same records show the same sequence of
timestamps. -/
theorem sorted_perm_timestamps {l1 l2 : RawVersions} (hp : l1.Perm l2)
    (h1 : l1.Pairwise createdLE) (h2 : l2.Pairwise createdLE) :
    l1.map RawVersion.CreatedAt = l2.map RawVersion.CreatedAt :=
  List.eq_of_perm_of_sorted (hp.map RawVersion.CreatedAt)
    (map_createdAt_sorted h1) (map_createdAt_sorted h2)

/-- When the timestamps are pairwise different there is one ascending
arrangement only. -/
theorem sorted_perm_unique {l1 l2 : RawVersions} (hp : l1.Perm l2)
    (h1 : l1.Pairwise createdLE) (h2 : l2.Pairwise createdLE)
    (hnd : (l2.map RawVersion.CreatedAt).Nodup) : l1 = l2 := by
  apply eq_of_map_eq_of_injOn RawVersion.CreatedAt l1 l2 (sorted_perm_timestamps hp h1 h2)
  intro x hx y hy hxy
  exact List.inj_on_of_nodup_map hnd (hp.subset hx) hy hxy

theorem sort_eq_stableSort {sort : RawVersions → RawVersions} (hs : SortContract sort)
    (data : RawVersions) (hnd : (data.map RawVersion.CreatedAt).Nodup) :
    sort data = stableSort data := by
  have hp : (sort data).Perm (stableSort data) :=
    (hs.perm data).trans (List.perm_insertionSort createdLE data).symm
  refine sorted_perm_unique hp (hs.sorted data) (createdLE_stableSort data) ?_
  exact ((List.perm_insertionSort createdLE data).map RawVersion.CreatedAt).nodup_iff.mpr hnd

theorem PrintVersions_run (env : Env) (vers : Versions) (quite active : Bool) (w : World) :
    PrintVersions env vers quite active w =
      (Except.ok (), { w with stdout := w.stdout ++
        (printedRecords env vers active).map (printedLine env quite) }) :=
  PrintVersions_loop_run env quite active (env.sortSort vers.Versions) w

theorem sort_two_records {sort : RawVersions → RawVersions} (hs : SortContract sort)
    (m1 m2 : Int) :
    sort [⟨"v1", 100, m1, false⟩, ⟨"v2", 200, m2, true⟩]
      = [⟨"v1", 100, m1, false⟩, ⟨"v2", 200, m2, true⟩] := by
  rw [sort_eq_stableSort hs _ (by simp)]
  simp [stableSort, List.insertionSort, List.orderedInsert, createdLE]

/-- **C1.** Whatever the collection and the flags, the library sort returns,
the chunks `PrintVersions` writes are those of the records `printedRecords`
(the records it keeps, in printing order), these are the kept records of the
input, and along them the creation timestamp never decreases. The order comes
from running `sort.Sort` on the slice through `Len`, `Less` and `Swap`. -/
theorem PrintVersions_ascending (env : Env) (next : Nat → Nat)
    (hlib : env.sortSort = librarySort next)
    (vers : Versions) (quite active : Bool) (w : World) :
    GoSort.sortSort next vers.Versions = some (env.sortSort vers.Versions) ∧
    PrintVersions env vers quite active w =
      (Except.ok (), { w with stdout := w.stdout ++
        (printedRecords env vers active).map (printedLine env quite) }) ∧
    (printedRecords env vers active).Perm
      (vers.Versions.filter (fun r => !active || r.Active)) ∧
    (printedRecords env vers active).Pairwise (fun a b => a.CreatedAt ≤ b.CreatedAt) := by
  have hs : SortContract env.sortSort := hlib ▸ SortContract_librarySort next
  exact ⟨hlib ▸ librarySort_eq next vers.Versions,
   PrintVersions_run env vers quite active w,
   (hs.perm vers.Versions).filter _,
   List.Pairwise.filter _ (hs.sorted vers.Versions)⟩

/-- Example for C1: the example list, sent newest first, is printed oldest first. -/
theorem PrintVersions_ascending_witness :
    goSortEnv.sortSort = librarySort GoSort.xorshiftNext ∧
    PrintVersions goSortEnv ⟨demoVersions⟩ true false World.empty =
      (Except.ok (), ⟨[], [toBytes "v1\n", toBytes "v2\n"]⟩) ∧
    (printedRecords goSortEnv ⟨demoVersions⟩ false).Pairwise
      (fun a b => a.CreatedAt ≤ b.CreatedAt) :=
  ⟨rfl,
   by rfl,
   (PrintVersions_ascending goSortEnv GoSort.xorshiftNext rfl ⟨demoVersions⟩ true false
      World.empty).2.2.2⟩

/-- **C2.** With `quite = true` and `active = false`, `PrintVersions` writes
one chunk per record of the collection, each the record's identifier followed
by the newline of the format string; the records are those of the input, none
lost and none duplicated, in ascending order of creation timestamp, as left by
`sort.Sort` run on the slice through `Len`, `Less` and `Swap`. For the list
`v1` (created at 100, inactive), `v2` (created at 200, active) the chunks are
`v1` and then `v2`. -/
theorem PrintVersions_quiet (env : Env) (next : Nat → Nat)
    (hlib : env.sortSort = librarySort next) (vers : Versions) (w : World) :
    GoSort.sortSort next vers.Versions = some (env.sortSort vers.Versions) ∧
    PrintVersions env vers true false w =
      (Except.ok (), { w with stdout := w.stdout ++
        (env.sortSort vers.Versions).map (fun r => toBytes (r.VersionId ++ "\n")) }) ∧
    (env.sortSort vers.Versions).Perm vers.Versions ∧
    (env.sortSort vers.Versions).length = vers.Versions.length ∧
    (env.sortSort vers.Versions).Pairwise (fun a b => a.CreatedAt ≤ b.CreatedAt) ∧
    ∀ m1 m2 : Int,
      PrintVersions env ⟨[⟨"v1", 100, m1, false⟩, ⟨"v2", 200, m2, true⟩]⟩ true false w =
        (Except.ok (), { w with stdout := w.stdout ++ [toBytes "v1\n", toBytes "v2\n"] }) := by
  have hs : SortContract env.sortSort := hlib ▸ SortContract_librarySort next
  refine ⟨hlib ▸ librarySort_eq next vers.Versions, ?_, hs.perm vers.Versions,
    (hs.perm vers.Versions).length_eq, hs.sorted vers.Versions, ?_⟩
  · rw [PrintVersions_run]
    simp [printedRecords, printedLine]
  · intro m1 m2
    rw [PrintVersions_run]
    simp only [printedRecords, sort_two_records hs]
    rfl

/-- Example for C2: with the library sort the example list, sent as `v2`, `v1`, is
printed as `v1`, `v2`. -/
theorem PrintVersions_quiet_witness :
    goSortEnv.sortSort = librarySort GoSort.xorshiftNext ∧
    goSortEnv.sortSort demoVersions = [⟨"v1", 100, 150, false⟩, ⟨"v2", 200, 250, true⟩] ∧
    PrintVersions goSortEnv ⟨demoVersions⟩ true false World.empty =
      (Except.ok (), { World.empty with stdout := World.empty.stdout ++
        (goSortEnv.sortSort demoVersions).map (fun r => toBytes (r.VersionId ++ "\n")) }) :=
  ⟨rfl, by decide,
   (PrintVersions_quiet goSortEnv GoSort.xorshiftNext rfl ⟨demoVersions⟩ World.empty).2.1⟩

/-- **C3.** With `active = true`, `PrintVersions` writes a chunk for a record if
and only if the record is active: the records printed are a rearrangement of
the active records of the input. Hence nothing is written when no record is
active, at most one chunk when at most one record is active, and for the list
`v1` (created at 100, inactive), `v2` (created at 200, active) only the chunk of
`v2` is written. -/
theorem PrintVersions_activeOnly (env : Env) (hs : SortContract env.sortSort)
    (vers : Versions) (quite : Bool) (w : World) :
    PrintVersions env vers quite true w =
      (Except.ok (), { w with stdout := w.stdout ++
        (printedRecords env vers true).map (printedLine env quite) }) ∧
    (printedRecords env vers true).Perm (vers.Versions.filter (fun r => r.Active)) ∧
    (∀ r : RawVersion,
      r ∈ printedRecords env vers true ↔ r ∈ vers.Versions ∧ r.Active = true) ∧
    ((∀ r ∈ vers.Versions, r.Active = false) →
      PrintVersions env vers quite true w = (Except.ok (), w)) ∧
    ((vers.Versions.filter (fun r => r.Active)).length ≤ 1 →
      ((printedRecords env vers true).map (printedLine env quite)).length ≤ 1) ∧
    ∀ m1 m2 : Int,
      PrintVersions env ⟨[⟨"v1", 100, m1, false⟩, ⟨"v2", 200, m2, true⟩]⟩ quite true w =
        (Except.ok (), { w with stdout := w.stdout ++
          [printedLine env quite ⟨"v2", 200, m2, true⟩] }) := by
  have hperm : (printedRecords env vers true).Perm
      (vers.Versions.filter (fun r => r.Active)) := by
    have := (hs.perm vers.Versions).filter (fun r => r.Active)
    simpa [printedRecords] using this
  refine ⟨PrintVersions_run env vers quite true w, hperm, ?_, ?_, ?_, ?_⟩
  · intro r
    rw [hperm.mem_iff]
    simp
  · intro hnone
    have hnil : printedRecords env vers true = [] := by
      apply List.Perm.eq_nil
      have : vers.Versions.filter (fun r => r.Active) = [] := by
        rw [List.filter_eq_nil_iff]
        intro r hr
        simp [hnone r hr]
      rw [this] at hperm
      exact hperm
    rw [PrintVersions_run, hnil]
    simp
  · intro hle
    rw [List.length_map, hperm.length_eq]
    exact hle
  · intro m1 m2
    rw [PrintVersions_run]
    simp only [printedRecords, sort_two_records hs]
    rfl

/-- Example for C3: of the example list only the active `v2` is printed. -/
theorem PrintVersions_activeOnly_witness :
    SortContract demoEnv.sortSort ∧
    PrintVersions demoEnv ⟨demoVersions⟩ true true World.empty =
      (Except.ok (), ⟨[], [toBytes "v2\n"]⟩) ∧
    (printedRecords demoEnv ⟨demoVersions⟩ true).Perm
      (demoVersions.filter (fun r => r.Active)) :=
  ⟨SortContract_stableSort,
   by rfl,
   (PrintVersions_activeOnly demoEnv SortContract_stableSort ⟨demoVersions⟩ true World.empty).2.1⟩

/-- **C4, as stated, fails.** The sort of `PrintVersions` is `sort.Sort`, which
is not stable beyond twelve records. For the thirteen records `a` (created at
200) and `b` to `m` (all created at 100, in this order) the library picks the
record at index 6, `g`, as pivot, `partition` first exchanges it with the
record at index 0, nothing else moves it, and the insertion sort of the other
twelve carries `a` to the end: `g` is printed first, before `b` to `f`, which
have the same timestamp and precede it in the input. -/
theorem PrintVersions_not_stable :
    GoSort.sortSort GoSort.xorshiftNext thirteenVersions =
      some [⟨"g", 100, 0, false⟩, ⟨"b", 100, 0, false⟩, ⟨"c", 100, 0, false⟩,
            ⟨"d", 100, 0, false⟩, ⟨"e", 100, 0, false⟩, ⟨"f", 100, 0, false⟩,
            ⟨"h", 100, 0, false⟩, ⟨"i", 100, 0, false⟩, ⟨"j", 100, 0, false⟩,
            ⟨"k", 100, 0, false⟩, ⟨"l", 100, 0, false⟩, ⟨"m", 100, 0, false⟩,
            ⟨"a", 200, 0, false⟩] ∧
    PrintVersions goSortEnv ⟨thirteenVersions⟩ true false World.empty =
      (Except.ok (), ⟨[], [toBytes "g\n", toBytes "b\n", toBytes "c\n", toBytes "d\n",
        toBytes "e\n", toBytes "f\n", toBytes "h\n", toBytes "i\n", toBytes "j\n",
        toBytes "k\n", toBytes "l\n", toBytes "m\n", toBytes "a\n"]⟩) ∧
    List.Sublist [(⟨"b", 100, 0, false⟩ : RawVersion), ⟨"g", 100, 0, false⟩]
      thirteenVersions ∧
    ¬ List.Sublist [(⟨"b", 100, 0, false⟩ : RawVersion), ⟨"g", 100, 0, false⟩]
      (printedRecords goSortEnv ⟨thirteenVersions⟩ false) := by
  have hrec : printedRecords goSortEnv ⟨thirteenVersions⟩ false =
      [⟨"g", 100, 0, false⟩, ⟨"b", 100, 0, false⟩, ⟨"c", 100, 0, false⟩,
       ⟨"d", 100, 0, false⟩, ⟨"e", 100, 0, false⟩, ⟨"f", 100, 0, false⟩,
       ⟨"h", 100, 0, false⟩, ⟨"i", 100, 0, false⟩, ⟨"j", 100, 0, false⟩,
       ⟨"k", 100, 0, false⟩, ⟨"l", 100, 0, false⟩, ⟨"m", 100, 0, false⟩,
       ⟨"a", 200, 0, false⟩] := by decide
  refine ⟨by decide, ?_, ?_, ?_⟩
  · rw [PrintVersions_run, hrec]
    rfl
  · unfold thirteenVersions
    decide
  · rw [hrec]
    decide

/-- **C4, amended.** The sort of `PrintVersions` is `sort.Sort`, run on the
slice through `Len`, `Less` and `Swap`; it orders by creation timestamp and is
stable only on short slices. For every collection the chunks written are those
of `printedRecords`, in ascending order of timestamp. When the collection has
at most twelve records, two kept records with equal timestamps are printed in
their input order. When no two records of the collection share a timestamp,
the records printed are exactly those a stable sort gives. Nothing more is
said of the relative order of records with equal timestamps. -/
theorem PrintVersions_order_up_to_ties (env : Env) (next : Nat → Nat)
    (hlib : env.sortSort = librarySort next)
    (vers : Versions) (quite active : Bool) (w : World) :
    PrintVersions env vers quite active w =
      (Except.ok (), { w with stdout := w.stdout ++
        (printedRecords env vers active).map (printedLine env quite) }) ∧
    (printedRecords env vers active).Pairwise (fun a b => a.CreatedAt ≤ b.CreatedAt) ∧
    (vers.Versions.length ≤ 12 →
      ∀ a b : RawVersion, a.CreatedAt = b.CreatedAt →
        List.Sublist [a, b] (vers.Versions.filter (fun r => !active || r.Active)) →
        List.Sublist [a, b] (printedRecords env vers active)) ∧
    ((vers.Versions.map RawVersion.CreatedAt).Nodup →
      printedRecords env vers active =
        (stableSort vers.Versions).filter (fun r => !active || r.Active)) ∧
    (∀ a b : RawVersion, a.CreatedAt ≤ b.CreatedAt →
      List.Sublist [a, b] vers.Versions → List.Sublist [a, b] (stableSort vers.Versions)) := by
  have hs : SortContract env.sortSort := hlib ▸ SortContract_librarySort next
  refine ⟨PrintVersions_run env vers quite active w,
    List.Pairwise.filter _ (hs.sorted vers.Versions), ?_, ?_,
    fun a b hab h => stableSort_stable vers.Versions a b hab h⟩
  · intro hlen a b hab hsub
    have hin : List.Sublist [a, b] vers.Versions := hsub.trans (List.filter_sublist _)
    have ha : (!active || a.Active) = true :=
      (List.mem_filter.mp (hsub.subset (List.mem_cons_self a [b]))).2
    have hb : (!active || b.Active) = true :=
      (List.mem_filter.mp (hsub.subset (List.mem_cons_of_mem a (List.mem_singleton_self b)))).2
    have hk := librarySort_keepsOrder_of_short next vers.Versions hlen a b (by omega) hin
    rw [← hlib] at hk
    have hf := hk.filter (fun r => !active || r.Active)
    simp only [List.filter_cons, ha, hb, if_true, List.filter_nil] at hf
    exact hf
  · intro hnd
    unfold printedRecords
    rw [sort_eq_stableSort hs vers.Versions hnd]

/-- Example for the amended C4: with the library sort the two records of the
example list, whose timestamps differ, are printed as a stable sort orders
them, and two records `a`, `b` created at the same time are printed as `a`,
`b`. -/
theorem PrintVersions_order_up_to_ties_witness :
    goSortEnv.sortSort = librarySort GoSort.xorshiftNext ∧
    (demoVersions.map RawVersion.CreatedAt).Nodup ∧
    printedRecords goSortEnv ⟨demoVersions⟩ false =
      (stableSort demoVersions).filter (fun r => !false || r.Active) ∧
    [(⟨"a", 100, 0, false⟩ : RawVersion), ⟨"b", 100, 0, false⟩].length ≤ 12 ∧
    List.Sublist [(⟨"a", 100, 0, false⟩ : RawVersion), ⟨"b", 100, 0, false⟩]
      (printedRecords goSortEnv ⟨[⟨"a", 100, 0, false⟩, ⟨"b", 100, 0, false⟩]⟩ false) :=
  ⟨rfl, by decide,
   (PrintVersions_order_up_to_ties goSortEnv GoSort.xorshiftNext rfl ⟨demoVersions⟩ true
      false World.empty).2.2.2.1 (by decide),
   by decide,
   (PrintVersions_order_up_to_ties goSortEnv GoSort.xorshiftNext rfl
      ⟨[⟨"a", 100, 0, false⟩, ⟨"b", 100, 0, false⟩]⟩ true false World.empty).2.2.1
      (by decide) ⟨"a", 100, 0, false⟩ ⟨"b", 100, 0, false⟩ rfl (by decide)⟩

/-! ## Requests issued by the commands -/

theorem send_run (env : Env) (req : Request) (w : World) :
    send env req w =
      match env.transport w.requests req with
      | some b => (Except.ok b, { w with requests := w.requests ++ [req] })
      | none => (Except.error Abort.transport, { w with requests := w.requests ++ [req] }) := by
  unfold send
  cases env.transport w.requests req <;> rfl

theorem send_requests (env : Env) (req : Request) (w : World) :
    (send env req w).2.requests = w.requests ++ [req] := by
  rw [send_run]
  cases env.transport w.requests req <;> rfl

theorem send_stdout (env : Env) (req : Request) (w : World) :
    (send env req w).2.stdout = w.stdout := by
  rw [send_run]
  cases env.transport w.requests req <;> rfl

theorem GetServerCode_requests (env : Env) (version : String) (w : World) :
    (GetServerCode env version w).2.requests = w.requests ++ [getRequest env version] := by
  simp only [GetServerCode, HttpGet, run_bind, send_run, getRequest]
  cases env.transport w.requests _ <;> rfl

theorem ActivateServerCode_requests (env : Env) (version : String) (w : World) :
    (ActivateServerCode env version w).2.requests
      = w.requests ++ [activateRequest env version] := by
  simp only [ActivateServerCode, HttpPut, run_bind, send_run, activateRequest]
  cases env.transport w.requests _ <;> rfl

theorem ActivateServerCode_stdout (env : Env) (version : String) (w : World) :
    (ActivateServerCode env version w).2.stdout = w.stdout := by
  simp only [ActivateServerCode, HttpPut, run_bind, send_run]
  cases env.transport w.requests _ <;> rfl

theorem activeVersion_eq_find (l : List RawVersion) (ver : String) :
    activeVersion l ver =
      match l.find? (fun v => v.Active) with
      | some v => v.VersionId
      | none => ver := by
  induction l with
  | nil => rfl
  | cons v rest ih =>
    cases hA : v.Active <;> simp [activeVersion, List.find?, hA, ih]

theorem ListVersions_run (env : Env) (w : World) (b : Bytes) (vers : Versions)
    (hget : env.transport w.requests (listRequest env) = some b)
    (hdec : env.UnmarshalVersions b = (vers, false)) :
    ListVersions env w = (Except.ok vers, { w with requests := w.requests ++ [listRequest env] }) := by
  have hget2 : env.transport w.requests
      ⟨Method.GET, "/apps/" ++ env.AppId ++ "/server-code/versions",
       env.HttpHeadersWithAuthorization "", []⟩ = some b := hget
  simp only [ListVersions, HttpGet, run_bind, send_run, hget2, hdec]
  rfl

/-- **C5.** Without an argument, the `servercode:get` action asks for the
version list and then requests the identifier of the first record, in the
order of the decoded list, whose active flag is set, or the empty identifier
when there is none: the GET goes to `/apps/{app}/server-code/versions/{id}`.
With exactly one argument it requests that argument as given and issues no
other request. -/
theorem getAction_requests (env : Env) (c : Context) (w : World) :
    (c.Args = [] →
      ∀ (b : Bytes) (vers : Versions),
        env.transport w.requests
          ⟨Method.GET, "/apps/" ++ env.AppId ++ "/server-code/versions",
           env.HttpHeadersWithAuthorization "", []⟩ = some b →
        env.UnmarshalVersions b = (vers, false) →
        (getAction env c w).2.requests =
          w.requests ++
            [ (⟨Method.GET, "/apps/" ++ env.AppId ++ "/server-code/versions",
                env.HttpHeadersWithAuthorization "", []⟩ : Request),
              (⟨Method.GET,
                "/apps/" ++ env.AppId ++ "/server-code/versions/" ++
                  (match vers.Versions.find? (fun v => v.Active) with
                   | some v => v.VersionId
                   | none => ""),
                env.HttpHeadersWithAuthorization "", []⟩ : Request) ]) ∧
    (∀ a : String, c.Args = [a] →
      getAction env c w = GetServerCode env a w ∧
      (getAction env c w).2.requests =
        w.requests ++
          [ (⟨Method.GET, "/apps/" ++ env.AppId ++ "/server-code/versions/" ++ a,
              env.HttpHeadersWithAuthorization "", []⟩ : Request) ]) := by
  constructor
  · intro hargs b vers hget hdec
    have hl := ListVersions_run env w b vers hget hdec
    simp only [getAction, hargs, run_bind, List.length_nil, gt_iff_lt, Nat.not_lt_zero,
      if_false, Nat.zero_ne_one, hl, run_pure, activeVersion_eq_find, ↓reduceIte]
    rw [GetServerCode_requests]
    simp [listRequest, getRequest]
  · intro a hargs
    have h1 : getAction env c w = GetServerCode env a w := by
      simp [getAction, hargs, argAt]
    refine ⟨h1, ?_⟩
    rw [h1, GetServerCode_requests]
    rfl

/-- Example for C5: with the example list the action fetches `v2`; given `v9` it fetches `v9` and nothing else. -/
theorem getAction_requests_witness :
    (getAction demoEnv ⟨[], fun _ => false, "servercode:get"⟩ World.empty).2.requests =
      [⟨Method.GET, "/apps/app1/server-code/versions",
          [("authorization", "Bearer t"), ("content-type", "")], []⟩,
       ⟨Method.GET, "/apps/app1/server-code/versions/v2",
          [("authorization", "Bearer t"), ("content-type", "")], []⟩] ∧
    (getAction demoEnv ⟨["v9"], fun _ => false, "servercode:get"⟩ World.empty).2.requests =
      [⟨Method.GET, "/apps/app1/server-code/versions/v9",
          [("authorization", "Bearer t"), ("content-type", "")], []⟩] :=
  ⟨(getAction_requests demoEnv ⟨[], fun _ => false, "servercode:get"⟩ World.empty).1 rfl
      demoListBody ⟨demoVersions⟩ (by rfl) (by rfl),
   ((getAction_requests demoEnv ⟨["v9"], fun _ => false, "servercode:get"⟩ World.empty).2
      "v9" rfl).2⟩

theorem DeployServerCode_run (env : Env) (serverCodePath : String) (activate : Bool)
    (w : World) (code b : Bytes)
    (hread : env.ReadFile serverCodePath = some code)
    (hpost : env.transport w.requests (deployRequest env code) = some b) :
    DeployServerCode env serverCodePath activate w =
      if activate then
        ActivateServerCode env (mapIndex (env.UnmarshalMap b).1 "versionID")
          { requests := w.requests ++ [deployRequest env code],
            stdout := w.stdout ++
              [toBytes ("versionID: " ++ mapIndex (env.UnmarshalMap b).1 "versionID" ++ "\n")] }
      else
        (Except.ok (),
          { requests := w.requests ++ [deployRequest env code],
            stdout := w.stdout ++
              [toBytes ("versionID: " ++ mapIndex (env.UnmarshalMap b).1 "versionID" ++ "\n")] }) := by
  have hpost2 : env.transport w.requests
      ⟨Method.POST, "/apps/" ++ env.AppId ++ "/server-code",
       env.HttpHeadersWithAuthorization "application/javascript", code⟩ = some b := hpost
  cases activate <;>
    simp [DeployServerCode, hread, HttpPost, send_run, hpost2, deployRequest]

/-- **C6.** For every readable file and every answer to the POST,
`DeployServerCode` with `activate = true` adds exactly two requests to the
log: the POST to `/apps/{app}/server-code` carrying the bytes of the file, then
the PUT to `/apps/{app}/server-code/versions/current` whose body is the
`versionID` entry of the map decoded from the answer. With `activate = false`
it adds the POST alone. -/
theorem DeployServerCode_requests (env : Env) (serverCodePath : String) (w : World)
    (code b : Bytes)
    (hread : env.ReadFile serverCodePath = some code)
    (hpost : env.transport w.requests (deployRequest env code) = some b) :
    (DeployServerCode env serverCodePath true w).2.requests =
      w.requests ++
        [ (⟨Method.POST, "/apps/" ++ env.AppId ++ "/server-code",
            env.HttpHeadersWithAuthorization "application/javascript", code⟩ : Request),
          (⟨Method.PUT, "/apps/" ++ env.AppId ++ "/server-code/versions/current",
            env.HttpHeadersWithAuthorization "text/plain",
            toBytes (mapIndex (env.UnmarshalMap b).1 "versionID")⟩ : Request) ] ∧
    (DeployServerCode env serverCodePath false w).2.requests =
      w.requests ++
        [ (⟨Method.POST, "/apps/" ++ env.AppId ++ "/server-code",
            env.HttpHeadersWithAuthorization "application/javascript", code⟩ : Request) ] := by
  constructor
  · rw [DeployServerCode_run env serverCodePath true w code b hread hpost]
    simp only [if_true, ActivateServerCode_requests]
    simp [deployRequest, activateRequest]
  · rw [DeployServerCode_run env serverCodePath false w code b hread hpost]
    simp [deployRequest]

/-- Example for C6: deploying `main.js` with activation posts the file and then puts `v3`. -/
theorem DeployServerCode_requests_witness :
    demoEnv.ReadFile "main.js" = some (toBytes "function f() \x7b\x7d") ∧
    (DeployServerCode demoEnv "main.js" true World.empty).2.requests =
      [ ⟨Method.POST, "/apps/app1/server-code",
          [("authorization", "Bearer t"), ("content-type", "application/javascript")],
          toBytes "function f() \x7b\x7d"⟩,
        ⟨Method.PUT, "/apps/app1/server-code/versions/current",
          [("authorization", "Bearer t"), ("content-type", "text/plain")],
          toBytes "v3"⟩ ] :=
  ⟨rfl,
   (DeployServerCode_requests demoEnv "main.js" World.empty
      (toBytes "function f() \x7b\x7d") demoDeployBody rfl (by rfl)).1⟩

/-- When `json.Unmarshal` reports an error on the answer of the POST,
`DeployServerCode` goes on all the same: it writes the `versionID:` line with
whatever the map holds and, when asked to activate, issues the PUT. -/
theorem DeployServerCode_decode_error (env : Env) (serverCodePath : String) (w : World)
    (code b : Bytes)
    (hread : env.ReadFile serverCodePath = some code)
    (hpost : env.transport w.requests (deployRequest env code) = some b)
    (_herr : (env.UnmarshalMap b).2 = true) :
    (DeployServerCode env serverCodePath false w) =
      (Except.ok (),
        { requests := w.requests ++ [deployRequest env code],
          stdout := w.stdout ++
            [toBytes ("versionID: " ++ mapIndex (env.UnmarshalMap b).1 "versionID" ++ "\n")] }) ∧
    (DeployServerCode env serverCodePath true w).2.stdout =
      w.stdout ++
        [toBytes ("versionID: " ++ mapIndex (env.UnmarshalMap b).1 "versionID" ++ "\n")] ∧
    (DeployServerCode env serverCodePath true w).2.requests =
      w.requests ++ [deployRequest env code,
        activateRequest env (mapIndex (env.UnmarshalMap b).1 "versionID")] := by
  refine ⟨?_, ?_, ?_⟩
  · rw [DeployServerCode_run env serverCodePath false w code b hread hpost]
    simp
  · rw [DeployServerCode_run env serverCodePath true w code b hread hpost]
    simp only [if_true, ActivateServerCode_stdout]
  · rw [DeployServerCode_run env serverCodePath true w code b hread hpost]
    simp only [if_true, ActivateServerCode_requests]
    simp

/-- **C7, the code at a failing input.** The server answers the deploy with a
body that is not JSON, so that `json.Unmarshal` returns an error and leaves the
map empty. `DeployServerCode` with `activate = true` does not stop: it returns
normally, having written the line `versionID: ` and issued the activating PUT
with an empty body. -/
theorem DeployServerCode_decode_error_not_fatal :
    brokenServerEnv.UnmarshalMap (toBytes "<html>Bad Gateway</html>") = ([], true) ∧
    DeployServerCode brokenServerEnv "main.js" true World.empty =
      (Except.ok (),
        { requests :=
            [ ⟨Method.POST, "/apps/app1/server-code",
                [("authorization", "Bearer t"), ("content-type", "application/javascript")],
                toBytes "function f() \x7b\x7d"⟩,
              ⟨Method.PUT, "/apps/app1/server-code/versions/current",
                [("authorization", "Bearer t"), ("content-type", "text/plain")], []⟩ ],
          stdout := [toBytes "versionID: \n"] }) :=
  ⟨by rfl, by rfl⟩

/-- **C8.** `InvokeServerCode` issues one POST to
`/apps/{app}/server-code/versions/{version}/{entryName}`; its body is the whole
of standard input when standard input is not a terminal, and the two
characters of an empty JSON object when it is. The `servercode:invoke` action
uses the version `current` when given the entry name alone and the second
argument when given two. -/
theorem InvokeServerCode_request (env : Env) (entryName version : String) (w : World) :
    (InvokeServerCode env entryName version w).2.requests =
      w.requests ++
        [ (⟨Method.POST,
            "/apps/" ++ env.AppId ++ "/server-code/versions/" ++ version ++ "/" ++ entryName,
            env.HttpHeadersWithAuthorization "application/json",
            if env.IsTerminal then toBytes "\x7b\x7d" else env.Stdin⟩ : Request) ] ∧
    toBytes "\x7b\x7d" = [123, 125] ∧
    (∀ (flags : String → Bool) (name : String),
      invokeAction env ⟨[entryName], flags, name⟩ = InvokeServerCode env entryName "current") ∧
    (∀ (flags : String → Bool) (name : String),
      invokeAction env ⟨[entryName, version], flags, name⟩
        = InvokeServerCode env entryName version) := by
  refine ⟨?_, by decide, ?_, ?_⟩
  · cases hT : env.IsTerminal <;>
      simp only [InvokeServerCode, HttpPost, run_bind, send_run, hT, if_true, if_false,
        Bool.false_eq_true] <;>
      cases env.transport w.requests _ <;> rfl
  · intro flags name
    funext w0
    simp [invokeAction, argAt]
  · intro flags name
    funext w0
    simp [invokeAction, argAt]

/-- Piped input is sent as it is, and a terminal sends the empty object. -/
theorem InvokeServerCode_examples :
    (InvokeServerCode demoEnv "main" "current" World.empty).2.requests =
      [ ⟨Method.POST, "/apps/app1/server-code/versions/current/main",
          [("authorization", "Bearer t"), ("content-type", "application/json")],
          toBytes "\x7b\"x\":1\x7d"⟩ ] ∧
    (InvokeServerCode terminalEnv "main" "current" World.empty).2.requests =
      [ ⟨Method.POST, "/apps/app1/server-code/versions/current/main",
          [("authorization", "Bearer t"), ("content-type", "application/json")],
          toBytes "\x7b\x7d"⟩ ] :=
  ⟨by rfl, by rfl⟩

/-- **C9, as stated, fails.** No command of the table is named `list`, `deploy`,
`get`, `invoke`, `activate` or `delete`: every name carries the prefix
`servercode:`; and no flag of the table answers to the name `quiet`. -/
theorem ServerCodeCommands_names_not_bare :
    ServerCodeCommands.map Command.Name ≠
      ["list", "deploy", "get", "invoke", "activate", "delete"] ∧
    (∀ cmd ∈ ServerCodeCommands,
      cmd.Name ∉ ["list", "deploy", "get", "invoke", "activate", "delete"]) ∧
    (∀ cmd ∈ ServerCodeCommands, ∀ f ∈ cmd.Flags, "quiet" ∉ flagNames f) := by
  refine ⟨by decide, by decide, by decide⟩

/-- **C9, amended.** The table holds six commands, named `servercode:list`,
`servercode:deploy`, `servercode:get`, `servercode:invoke`,
`servercode:activate` and `servercode:delete`. The first declares two boolean
flags: one with a long name and the short name `q`, one with the long name
`active` and the short name `a`; its action passes the value of the first flag,
looked up under that long name, as `quite` and the value of the flag `active`
as `active` to `ListServerCode`. -/
theorem ServerCodeCommands_table :
    ServerCodeCommands.map Command.Name =
      ["servercode:list", "servercode:deploy", "servercode:get", "servercode:invoke",
       "servercode:activate", "servercode:delete"] ∧
    ∃ (cmd : Command) (f1 f2 : BoolFlag) (long : String),
      ServerCodeCommands.head? = some cmd ∧
      cmd.Name = "servercode:list" ∧
      cmd.Flags = [f1, f2] ∧
      flagNames f1 = [long, "q"] ∧
      flagNames f2 = ["active", "a"] ∧
      ∀ (env : Env) (c : Context),
        cmd.Action env c = ListServerCode env (c.Bool long) (c.Bool "active") :=
  ⟨by decide, _, _, _, "quite", rfl, rfl, rfl, by decide, by decide, fun _ _ => rfl⟩

end KiiCli
